import Mathlib

/-!
Verification of the Sudoku core (generator, solver, validator) of this
repository.  The two duplicated implementations are embedded separately:
namespace `Core` models `src/core` (validator.py, generator.py) and
namespace `Sudoku` models `src/sudoku/core` (validator.py, generator.py).
A board is a total function from coordinates to cell values, 0 meaning empty.
Randomness (`random.shuffle`) is modelled by explicitly supplied orderings,
quantified universally in the theorems.
-/

set_option maxHeartbeats 1000000
set_option maxRecDepth 4000

abbrev Board := Fin 9 → Fin 9 → ℕ

/-- Write value `v` at numeric coordinates `(i, j)` (board mutation `board[i][j] = v`). -/
def updN (b : Board) (i j v : ℕ) : Board :=
  fun x y => if x.val = i ∧ y.val = j then v else b x y

/-- Write value `v` at cell `(r, c)`. -/
def update (b : Board) (r c : Fin 9) (v : ℕ) : Board := updN b r.val c.val v

/-- The digit list `list(range(1, 10))`. -/
def nums1to9 : List ℕ := (List.range 9).map (fun n => n + 1)

/-- All 81 cell positions in row-major order (`for i in range(9): for j in range(9)`). -/
def positionsList : List (Fin 9 × Fin 9) :=
  (List.finRange 9).flatMap (fun i => (List.finRange 9).map (fun j => (i, j)))

/-- The cell in box row `k`, offset `d`. -/
def boxFin (k d : Fin 3) : Fin 9 := ⟨3 * k.val + d.val, by omega⟩

def rowCells (i : Fin 9) : List (Fin 9 × Fin 9) :=
  (List.finRange 9).map (fun j => (i, j))

def colCells (j : Fin 9) : List (Fin 9 × Fin 9) :=
  (List.finRange 9).map (fun i => (i, j))

def boxCells (bi bj : Fin 3) : List (Fin 9 × Fin 9) :=
  (List.finRange 3).flatMap (fun di => (List.finRange 3).map (fun dj => (boxFin bi di, boxFin bj dj)))

/-- The list of values of `b` at the given cells. -/
def valsAt (b : Board) (cells : List (Fin 9 × Fin 9)) : List ℕ :=
  cells.map (fun p => b p.1 p.2)

/-- Cell `(i, j)` lies in the 3x3 box of cell `(r, c)`. -/
abbrev sameBox (r c i j : Fin 9) : Prop :=
  i.val / 3 = r.val / 3 ∧ j.val / 3 = c.val / 3

/-- Specification-side legality: no cell other than `(r, c)` in row `r`, column `c`,
or the box of `(r, c)` holds value `v`. -/
abbrev specNoConflict (b : Board) (r c : Fin 9) (v : ℕ) : Prop :=
  ∀ i j : Fin 9, (i ≠ r ∨ j ≠ c) → (i = r ∨ j = c ∨ sameBox r c i j) → b i j ≠ v

/-- Specification-side completeness: no empty cell, and every row, column and box
is a permutation of 1..9. -/
abbrev specComplete (b : Board) : Prop :=
  (∀ i j : Fin 9, b i j ≠ 0) ∧
  (∀ i : Fin 9, (valsAt b (rowCells i)).Perm nums1to9) ∧
  (∀ j : Fin 9, (valsAt b (colCells j)).Perm nums1to9) ∧
  (∀ bi bj : Fin 3, (valsAt b (boxCells bi bj)).Perm nums1to9)

/-- The board has no repeated nonzero digit in any row, column or box. -/
abbrev noConflicts (b : Board) : Prop :=
  ∀ r c : Fin 9, b r c ≠ 0 → specNoConflict b r c (b r c)

/-- Well-formed, conflict-free board: values in [0, 9] and no repeated nonzero digit
in any unit. -/
abbrev ValidBoard (b : Board) : Prop :=
  (∀ i j : Fin 9, b i j ≤ 9) ∧ noConflicts b

/-- Interpret a function into `Fin 10` as a board. -/
def toBoard (f : Fin 9 × Fin 9 → Fin 10) : Board := fun i j => (f (i, j)).val

/-- Completion relation: `s` agrees with every nonzero cell of `b` and is a
complete valid grid. -/
abbrev IsCompletionOf (b s : Board) : Prop :=
  (∀ i j : Fin 9, b i j ≠ 0 → s i j = b i j) ∧ specComplete s

/-- Executable completion test for a candidate grid given as a function into Fin 10. -/
def isCompletionB (b : Board) (f : Fin 9 × Fin 9 → Fin 10) : Bool :=
  decide (IsCompletionOf b (toBoard f))

/-- The true number of completions of a (possibly partial) board. -/
def numCompletions (b : Board) : ℕ :=
  (Finset.univ.filter (fun f : Fin 9 × Fin 9 → Fin 10 => isCompletionB b f = true)).card

/-- Number of empty cells of a board. -/
def emptyCount (b : Board) : ℕ :=
  (Finset.univ.filter (fun p : Fin 9 × Fin 9 => b p.1 p.2 = 0)).card

/-- Number of filled cells of a board. -/
def nonzeroCount (b : Board) : ℕ :=
  (Finset.univ.filter (fun p : Fin 9 × Fin 9 => b p.1 p.2 ≠ 0)).card

namespace Core

/-- Model of `SudokuValidator.check_cell` of `src/core/validator.py`: the value is legal at the
cell, the cell itself being excluded from the row, column and box scans. -/
def check_cell (b : Board) (row col : Fin 9) (value : ℕ) : Bool :=
  (decide (∀ j : Fin 9, j ≠ col → b row j ≠ value) &&
   decide (∀ i : Fin 9, i ≠ row → b i col ≠ value)) &&
  decide (∀ i j : Fin 9, sameBox row col i j → (i ≠ row ∨ j ≠ col) → b i j ≠ value)

/-- Model of `SudokuValidator.check_win` of `src/core/validator.py`: scans for an empty cell
and returns `True` exactly when none exists. -/
def check_win (b : Board) : Bool := decide (∀ i j : Fin 9, b i j ≠ 0)

/-- Model of `SudokuGenerator.is_valid` of `src/core/generator.py`. -/
def is_valid (num : ℕ) (pos : Fin 9 × Fin 9) (b : Board) : Bool :=
  (decide (∀ x : Fin 9, b pos.1 x = num → pos.2 = x) &&
   decide (∀ x : Fin 9, b x pos.2 = num → pos.1 = x)) &&
  decide (∀ i j : Fin 9, sameBox pos.1 pos.2 i j → b i j = num → (i, j) = pos)

/-- Model of `SudokuGenerator.find_empty` of `src/core/generator.py`: first empty cell in
row-major order. -/
def find_empty (b : Board) : Option (Fin 9 × Fin 9) :=
  positionsList.find? (fun p => b p.1 p.2 == 0)

/-- Candidate loop of `_count_solutions_recursive`: place each legal digit, recurse,
then reset the cell to 0.  The mutated board is threaded explicitly. -/
def countLoop (recur : Board → ℕ → ℕ × Board) (r c : Fin 9) :
    List ℕ → Board → ℕ → ℕ × Board
  | [], b, cnt => (cnt, b)
  | v :: rest, b, cnt =>
    if is_valid v (r, c) b then
      countLoop recur r c rest (update (recur (update b r c v) cnt).2 r c 0)
        (recur (update b r c v) cnt).1
    else countLoop recur r c rest b cnt

/-- Model of `SudokuGenerator._count_solutions_recursive` of `src/core/generator.py`, the
solution counter state being the `ℕ` component.  Fuel only bounds the recursion
depth; 82 units are enough for any board. -/
def countRec : ℕ → Board → ℕ → ℕ × Board
  | 0, b, cnt => (cnt, b)
  | fuel + 1, b, cnt =>
    if 1 < cnt then (cnt, b)
    else
      match find_empty b with
      | none => (cnt + 1, b)
      | some (r, c) => countLoop (countRec fuel) r c nums1to9 b cnt

/-- Model of `SudokuGenerator.count_solutions` of `src/core/generator.py`: reset the counter,
run the recursive counter on a copy of the board, return the counter. -/
def count_solutions (b : Board) : ℕ := (countRec 82 b 0).1

/-- Candidate loop of `_solve_recursive`: try each digit of the shuffled list,
recurse, and reset the cell to 0 when the recursion fails. -/
def solveLoop (recur : Board → Board × Bool) (r c : Fin 9) :
    List ℕ → Board → Board × Bool
  | [], b => (b, false)
  | v :: rest, b =>
    if is_valid v (r, c) b then
      if (recur (update b r c v)).2 then recur (update b r c v)
      else solveLoop recur r c rest (update (recur (update b r c v)).1 r c 0)
    else solveLoop recur r c rest b

/-- Model of `SudokuGenerator._solve_recursive` of `src/core/generator.py`; `sh` supplies the
shuffled digit order tried at each board state. -/
def solve_recursive (sh : Board → List ℕ) : ℕ → Board → Board × Bool
  | 0, b => (b, false)
  | fuel + 1, b =>
    match find_empty b with
    | none => (b, true)
    | some (r, c) => solveLoop (solve_recursive sh fuel) r c (sh b) b

/-- The `difficulty_ratios` table with the `.get(difficulty, 0.5)` default. -/
def difficulty_ratios (d : String) : ℚ :=
  if d = "easy" then 6/10
  else if d = "medium" then 5/10
  else if d = "hard" then 4/10
  else if d = "expert" then 3/10
  else 5/10

/-- The removal target `int(81 * (1 - remain_ratio))` of
`generate_puzzle_from_solution`. -/
def cellsToRemove (remain_ratio : ℚ) : ℕ := (⌊(81 : ℚ) * (1 - remain_ratio)⌋).toNat

/-- One scan of the shuffled position list in `generate_puzzle_from_solution`:
tentatively zero each cell, keep the removal when the puzzle still counts exactly
one solution, restore it otherwise; return the puzzle as soon as the target is
reached, and fail when the list is exhausted short of the target. -/
def carvePass (target : ℕ) : List (Fin 9 × Fin 9) → Board → ℕ → Option Board
  | [], puzzle, removed => if removed < target then none else some puzzle
  | p :: rest, puzzle, removed =>
    if count_solutions (update puzzle p.1 p.2 0) = 1 then
      if removed + 1 = target then some (update puzzle p.1 p.2 0)
      else carvePass target rest (update puzzle p.1 p.2 0) (removed + 1)
    else
      carvePass target rest
        (update (update puzzle p.1 p.2 0) p.1 p.2 (puzzle p.1 p.2)) removed

/-- Model of `SudokuGenerator.generate_puzzle_from_solution` of `src/core/generator.py`:
repeat carving passes over fresh shuffles (`sh` is the stream of shuffled position
lists, the fuel caps the `while True` restarts). -/
def generate_puzzle_from_solution (solution : Board) (remain_ratio : ℚ)
    (sh : ℕ → List (Fin 9 × Fin 9)) : ℕ → Option Board
  | 0 => none
  | k + 1 =>
    match carvePass (cellsToRemove remain_ratio) (sh k) solution 0 with
    | some puzzle => some puzzle
    | none => generate_puzzle_from_solution solution remain_ratio sh k

end Core

namespace Sudoku

/-- Model of `SudokuValidator.is_valid_row` of `src/sudoku/core/validator.py`. -/
def is_valid_row (b : Board) (row : Fin 9) (value : ℕ) (exclude_col : ℕ) : Bool :=
  decide (∀ col : Fin 9, col.val ≠ exclude_col → b row col ≠ value)

/-- Model of `SudokuValidator.is_valid_column` of `src/sudoku/core/validator.py`. -/
def is_valid_column (b : Board) (col : Fin 9) (value : ℕ) (exclude_row : ℕ) : Bool :=
  decide (∀ row : Fin 9, row.val ≠ exclude_row → b row col ≠ value)

/-- Model of `SudokuValidator.is_valid_box` of `src/sudoku/core/validator.py`. -/
def is_valid_box (b : Board) (row col : Fin 9) (value : ℕ) : Bool :=
  decide (∀ i j : Fin 9, sameBox row col i j → (i ≠ row ∨ j ≠ col) → b i j ≠ value)

/-- Model of `SudokuValidator.is_valid_move` of `src/sudoku/core/validator.py`. -/
def is_valid_move (b : Board) (row col : Fin 9) (value : ℕ) : Bool :=
  is_valid_row b row value col.val &&
  (is_valid_column b col value row.val && is_valid_box b row col value)

/-- Model of `SudokuValidator._is_valid_set`: `set(numbers) == set(range(1, 10))`. -/
def is_valid_set (numbers : List ℕ) : Bool := decide (numbers.toFinset = nums1to9.toFinset)

/-- Model of `SudokuValidator._check_all_rows`. -/
def check_all_rows (b : Board) : Bool :=
  (List.finRange 9).all (fun i => is_valid_set (valsAt b (rowCells i)))

/-- Model of `SudokuValidator._check_all_columns`. -/
def check_all_columns (b : Board) : Bool :=
  (List.finRange 9).all (fun j => is_valid_set (valsAt b (colCells j)))

/-- Model of `SudokuValidator._check_all_boxes`. -/
def check_all_boxes (b : Board) : Bool :=
  (List.finRange 3).all (fun bi =>
    (List.finRange 3).all (fun bj => is_valid_set (valsAt b (boxCells bi bj))))

/-- Model of `SudokuValidator.is_complete` of `src/sudoku/core/validator.py`. -/
def is_complete (b : Board) : Bool :=
  !(decide (∃ i j : Fin 9, b i j = 0)) &&
  (check_all_rows b && (check_all_columns b && check_all_boxes b))

/-- Model of `SudokuGenerator._get_candidates` of `src/sudoku/core/generator.py`: the digits
1..9 not already used in the row, column or box of the cell. -/
def get_candidates (b : Board) (row col : Fin 9) : List ℕ :=
  nums1to9.filter (fun v =>
    !(decide ((∃ x : Fin 9, b row x = v) ∨ (∃ x : Fin 9, b x col = v) ∨
              (∃ i j : Fin 9, sameBox row col i j ∧ b i j = v))))

/-- Scan loop of `_find_best_empty_cell`: track the empty cell with the fewest
candidates, returning at once when a single-candidate cell is found. -/
def find_best_aux (b : Board) :
    List (Fin 9 × Fin 9) → ℕ → Option (Fin 9 × Fin 9) → Option (Fin 9 × Fin 9)
  | [], _, best => best
  | p :: rest, minc, best =>
    if b p.1 p.2 = 0 then
      let k := (get_candidates b p.1 p.2).length
      if k < minc then
        if k = 1 then some p else find_best_aux b rest k (some p)
      else find_best_aux b rest minc best
    else find_best_aux b rest minc best

/-- Model of `SudokuGenerator._find_best_empty_cell` of `src/sudoku/core/generator.py`. -/
def find_best_empty_cell (b : Board) : Option (Fin 9 × Fin 9) :=
  find_best_aux b positionsList 10 none

/-- The `max_attempts` default of `_solve_recursive`. -/
def max_attempts : ℕ := 1000000

/-- Candidate loop of `_solve_recursive`: place each candidate, recurse, reset the
cell to 0 on failure; the attempts counter is threaded through. -/
def solveLoopS (recur : Board → ℕ → Board × ℕ × Bool) (r c : Fin 9) :
    List ℕ → Board → ℕ → Board × ℕ × Bool
  | [], b, att => (b, att, false)
  | v :: rest, b, att =>
    if (recur (update b r c v) att).2.2 then recur (update b r c v) att
    else
      solveLoopS recur r c rest (update (recur (update b r c v) att).1 r c 0)
        (recur (update b r c v) att).2.1

/-- Model of `SudokuGenerator._solve_recursive` of `src/sudoku/core/generator.py`: MRV cell
choice, shuffled candidates (`sh`, indexed by the attempts counter), attempts cap. -/
def solve_recursive (sh : ℕ → List ℕ → List ℕ) : ℕ → Board → ℕ → Board × ℕ × Bool
  | 0, b, att => (b, att, false)
  | fuel + 1, b, att =>
    if max_attempts ≤ att + 1 then (b, att + 1, false)
    else
      match find_best_empty_cell b with
      | none => (b, att + 1, true)
      | some (r, c) =>
        if (get_candidates b r c).isEmpty then (b, att + 1, false)
        else
          solveLoopS (fun b2 a2 => solve_recursive sh fuel b2 a2) r c
            (sh (att + 1) (get_candidates b r c)) b (att + 1)

/-- Model of `SudokuGenerator._fill_box`: write a permutation of 1..9 into the 3x3 box with
top-left corner `(start_row, start_col)`. -/
def fill_box (b : Board) (start_row start_col : ℕ) (numbers : List ℕ) : Board :=
  (List.range 3).foldl
    (fun acc i =>
      (List.range 3).foldl
        (fun acc2 j => updN acc2 (start_row + i) (start_col + j) (numbers.getD (i * 3 + j) 0))
        acc)
    b

/-- Model of `SudokuGenerator.generate_solution` of `src/sudoku/core/generator.py`: reset the
board, fill the three diagonal boxes with the supplied shuffled digit lists, then
run the backtracking solver. -/
def generate_solution (p0 p1 p2 : List ℕ) (sh : ℕ → List ℕ → List ℕ) (fuel : ℕ) :
    Option Board :=
  let b0 : Board := fun _ _ => 0
  let b1 := fill_box b0 0 0 p0
  let b2 := fill_box b1 3 3 p1
  let b3 := fill_box b2 6 6 p2
  let res := solve_recursive sh fuel b3 0
  if res.2.2 then some res.1 else none

/-- Candidate loop of `solve_count` inside `_has_unique_solution`, including the
early cap check before each candidate. -/
def countLoopS (recur : Board → ℕ → ℕ × Board) (r c : Fin 9) :
    List ℕ → Board → ℕ → ℕ × Board
  | [], b, cnt => (cnt, b)
  | v :: rest, b, cnt =>
    if 2 ≤ cnt then (cnt, b)
    else
      countLoopS recur r c rest (update (recur (update b r c v) cnt).2 r c 0)
        (recur (update b r c v) cnt).1

/-- Model of `solve_count` inside `SudokuGenerator._has_unique_solution`, with its cap of 2
solutions and its depth guard at 100.  Fuel only bounds the recursion; 82 units
are enough for any board. -/
def solve_count : ℕ → ℕ → Board → ℕ → ℕ × Board
  | 0, _, b, cnt => (cnt, b)
  | fuel + 1, depth, b, cnt =>
    if 2 ≤ cnt then (cnt, b)
    else if 100 < depth then (cnt, b)
    else
      match find_best_empty_cell b with
      | none => (cnt + 1, b)
      | some (r, c) =>
        countLoopS (fun b2 c2 => solve_count fuel (depth + 1) b2 c2) r c
          (get_candidates b r c) b cnt

/-- Model of `SudokuGenerator._has_unique_solution`: run `solve_count` on a copy of the board
and test the counter against 1. -/
def has_unique_solution (b : Board) : Bool := (solve_count 82 0 b 0).1 == 1

/-- Specification-side comparator for the depth guard: `solve_count` with the
`depth > 100` guard removed (and only the solution counter returned). -/
def countLoopNoguard (recur : Board → ℕ → ℕ) (r c : Fin 9) : List ℕ → Board → ℕ → ℕ
  | [], _, cnt => cnt
  | v :: rest, b, cnt =>
    if 2 ≤ cnt then cnt
    else countLoopNoguard recur r c rest b (recur (update b r c v) cnt)

/-- Specification-side comparator: the counting search without the depth guard. -/
def solve_count_noguard : ℕ → Board → ℕ → ℕ
  | 0, _, cnt => cnt
  | fuel + 1, b, cnt =>
    if 2 ≤ cnt then cnt
    else
      match find_best_empty_cell b with
      | none => cnt + 1
      | some (r, c) =>
        countLoopNoguard (fun b2 c2 => solve_count_noguard fuel b2 c2) r c
          (get_candidates b r c) b cnt

end Sudoku

/-- A complete valid Sudoku grid, used as concrete test input. -/
def exSol : Board :=
  ![![5, 3, 4, 6, 7, 8, 9, 1, 2],
    ![6, 7, 2, 1, 9, 5, 3, 4, 8],
    ![1, 9, 8, 3, 4, 2, 5, 6, 7],
    ![8, 5, 9, 7, 6, 1, 4, 2, 3],
    ![4, 2, 6, 8, 5, 3, 7, 9, 1],
    ![7, 1, 3, 9, 2, 4, 8, 5, 6],
    ![9, 6, 1, 5, 3, 7, 2, 8, 4],
    ![2, 8, 7, 4, 1, 9, 6, 3, 5],
    ![3, 4, 5, 2, 8, 6, 1, 7, 9]]

/-- The example solution with its first cell cleared. -/
def exPuzzle : Board := update exSol 0 0 0

/-- The all-ones board: full but invalid. -/
def onesB : Board := fun _ _ => 1

/-- The empty board. -/
def zeroB : Board := fun _ _ => 0

/-- The grid with first row 1..9 and every other cell empty. -/
def scenarioB : Board := fun i j => if i.val = 0 then j.val + 1 else 0

/-- An unsolvable near-complete grid: cell `(0,0)` cleared and cell `(0,1)` set to 5,
so digit 3 is the only row candidate at `(0,0)` but already occurs in column 0. -/
def badB : Board := update (update exSol 0 0 0) 0 1 5

/-! Bridge lemmas for the validator predicates. -/

theorem check_cell_iff (b : Board) (r c : Fin 9) (v : ℕ) :
    Core.check_cell b r c v = true ↔ specNoConflict b r c v := by
  simp only [Core.check_cell, Bool.and_eq_true, decide_eq_true_eq]
  constructor
  · rintro ⟨⟨hrow, hcol⟩, hbox⟩ i j hne hunit
    rcases hunit with hi | hj | hb
    · subst hi
      exact hrow j (hne.resolve_left (fun h => h rfl))
    · subst hj
      exact hcol i (hne.resolve_right (fun h => h rfl))
    · exact hbox i j hb hne
  · intro h
    refine ⟨⟨fun j hj => h r j (Or.inr hj) (Or.inl rfl),
             fun i hi => h i c (Or.inl hi) (Or.inr (Or.inl rfl))⟩,
            fun i j hb hne => h i j hne (Or.inr (Or.inr hb))⟩

theorem is_valid_iff (b : Board) (r c : Fin 9) (v : ℕ) :
    Core.is_valid v (r, c) b = true ↔ specNoConflict b r c v := by
  simp only [Core.is_valid, Bool.and_eq_true, decide_eq_true_eq]
  constructor
  · rintro ⟨⟨hrow, hcol⟩, hbox⟩ i j hne hunit hv
    rcases hunit with hi | hj | hb
    · subst hi
      exact (hne.resolve_left (fun h => h rfl)) (hrow j hv).symm
    · subst hj
      exact (hne.resolve_right (fun h => h rfl)) (hcol i hv).symm
    · have := hbox i j hb hv
      rw [Prod.mk.injEq] at this
      rcases hne with h | h
      · exact h this.1
      · exact h this.2
  · intro h
    refine ⟨⟨fun x hx => ?_, fun x hx => ?_⟩, fun i j hb hv => ?_⟩
    · by_contra hcx
      exact h r x (Or.inr (fun e => hcx e.symm)) (Or.inl rfl) hx
    · by_contra hrx
      exact h x c (Or.inl (fun e => hrx e.symm)) (Or.inr (Or.inl rfl)) hx
    · rw [Prod.mk.injEq]
      by_contra hne
      rw [not_and_or] at hne
      exact h i j hne (Or.inr (Or.inr hb)) hv

theorem is_valid_move_iff (b : Board) (r c : Fin 9) (v : ℕ) :
    Sudoku.is_valid_move b r c v = true ↔ specNoConflict b r c v := by
  simp only [Sudoku.is_valid_move, Sudoku.is_valid_row, Sudoku.is_valid_column,
    Sudoku.is_valid_box, Bool.and_eq_true, decide_eq_true_eq]
  constructor
  · rintro ⟨hrow, hcol, hbox⟩ i j hne hunit
    rcases hunit with hi | hj | hb
    · subst hi
      exact hrow j (fun h => (hne.resolve_left (fun h2 => h2 rfl)) (Fin.val_injective h))
    · subst hj
      exact hcol i (fun h => (hne.resolve_right (fun h2 => h2 rfl)) (Fin.val_injective h))
    · exact hbox i j hb hne
  · intro h
    refine ⟨fun j hj => h r j (Or.inr (fun e => hj (congrArg Fin.val e))) (Or.inl rfl),
            fun i hi => h i c (Or.inl (fun e => hi (congrArg Fin.val e))) (Or.inr (Or.inl rfl)),
            fun i j hb hne => h i j hne (Or.inr (Or.inr hb))⟩

theorem valsAt_row_length (b : Board) (i : Fin 9) : (valsAt b (rowCells i)).length = 9 := by
  simp [valsAt, rowCells]

theorem valsAt_col_length (b : Board) (j : Fin 9) : (valsAt b (colCells j)).length = 9 := by
  simp [valsAt, colCells]

theorem valsAt_box_length (b : Board) (bi bj : Fin 3) :
    (valsAt b (boxCells bi bj)).length = 9 := by
  fin_cases bi <;> fin_cases bj <;> rfl

theorem valid_set_iff_perm (l : List ℕ) (hl : l.length = 9) :
    Sudoku.is_valid_set l = true ↔ l.Perm nums1to9 := by
  simp only [Sudoku.is_valid_set, decide_eq_true_eq]
  constructor
  · intro hts
    have hdd : l.dedup.toFinset = l.toFinset := List.toFinset.ext (fun x => List.mem_dedup)
    have hdl : l.dedup.length = 9 := by
      rw [← List.toFinset_card_of_nodup (List.nodup_dedup l), hdd, hts]
      decide
    have hnd : l.Nodup :=
      List.dedup_eq_self.mp (List.Sublist.eq_of_length (List.dedup_sublist l) (by omega))
    exact List.perm_of_nodup_nodup_toFinset_eq hnd (by decide) hts
  · intro hp
    exact List.toFinset_eq_of_perm _ _ hp

theorem is_complete_iff (b : Board) : Sudoku.is_complete b = true ↔ specComplete b := by
  simp only [Sudoku.is_complete, Sudoku.check_all_rows, Sudoku.check_all_columns,
    Sudoku.check_all_boxes, Bool.and_eq_true, Bool.not_eq_true', decide_eq_false_iff_not,
    List.all_eq_true, List.mem_finRange, true_implies, not_exists]
  constructor
  · rintro ⟨h0, hr, hc, hb⟩
    refine ⟨fun i j => h0 i j, fun i => ?_, fun j => ?_, fun bi bj => ?_⟩
    · exact (valid_set_iff_perm _ (valsAt_row_length b i)).mp (hr i)
    · exact (valid_set_iff_perm _ (valsAt_col_length b j)).mp (hc j)
    · exact (valid_set_iff_perm _ (valsAt_box_length b bi bj)).mp (hb bi bj)
  · rintro ⟨h0, hr, hc, hb⟩
    refine ⟨fun i j => h0 i j, fun i => ?_, fun j => ?_, fun bi => fun bj => ?_⟩
    · exact (valid_set_iff_perm _ (valsAt_row_length b i)).mpr (hr i)
    · exact (valid_set_iff_perm _ (valsAt_col_length b j)).mpr (hc j)
    · exact (valid_set_iff_perm _ (valsAt_box_length b bi bj)).mpr (hb bi bj)

/-- C3 counterexample: on the all-ones grid, `check_win` of `src/core/validator.py`
returns true although no row, column or box is a permutation of 1..9, so the claimed
iff fails for `check_win`. -/
theorem claim_C3_counterexample : Core.check_win onesB = true ∧ ¬ specComplete onesB := by
  constructor
  · decide
  · decide

/-- C3 (amended): `is_complete` of `src/sudoku/core/validator.py` returns true
exactly when the grid has no zero and every row, column and box is a permutation of
1..9; `check_win` of `src/core/validator.py` only tests the absence of zeros. -/
theorem claim_C3 :
    (∀ b : Board, Sudoku.is_complete b = true ↔ specComplete b) ∧
    (∀ b : Board, Core.check_win b = true ↔ ∀ i j : Fin 9, b i j ≠ 0) := by
  refine ⟨is_complete_iff, fun b => ?_⟩
  simp [Core.check_win]

/-- C6: `check_cell` and `is_valid_move` return true exactly when no cell other than
`(r, c)` in the same row, column or box holds the value; in particular, on the grid
with first row 1..9 and all else empty, checking value 1 at `(0,0)` succeeds and at
`(1,0)` fails. -/
theorem claim_C6 :
    (∀ (b : Board) (r c : Fin 9) (v : ℕ),
        (Core.check_cell b r c v = true ↔ specNoConflict b r c v) ∧
        (Sudoku.is_valid_move b r c v = true ↔ specNoConflict b r c v)) ∧
    Core.check_cell scenarioB 0 0 1 = true ∧ Core.check_cell scenarioB 1 0 1 = false ∧
    Sudoku.is_valid_move scenarioB 0 0 1 = true ∧
    Sudoku.is_valid_move scenarioB 1 0 1 = false := by
  refine ⟨fun b r c v => ⟨check_cell_iff b r c v, is_valid_move_iff b r c v⟩,
    by decide, by decide, by decide, by decide⟩

/-- C7 counterexample: on the all-zero grid, checking the cell `(0,0)` against its
own current value 0 returns false, both in the validator and in the generator, so
the claim does not hold for every grid. -/
theorem claim_C7_counterexample :
    Core.check_cell zeroB 0 0 (zeroB 0 0) = false ∧
    Core.is_valid (zeroB 0 0) ((0 : Fin 9), (0 : Fin 9)) zeroB = false := by
  constructor
  · decide
  · decide

/-- C7 (amended): on a conflict-free grid, checking a nonzero cell against its own
current value always succeeds, both in `check_cell` of `src/core/validator.py` and
in `is_valid` of `src/core/generator.py`. -/
theorem claim_C7 (b : Board) (r c : Fin 9) (hb : noConflicts b) (h0 : b r c ≠ 0) :
    Core.check_cell b r c (b r c) = true ∧ Core.is_valid (b r c) (r, c) b = true :=
  ⟨(check_cell_iff b r c (b r c)).mpr (hb r c h0),
   (is_valid_iff b r c (b r c)).mpr (hb r c h0)⟩

/-- Witness for C7 at a concrete complete grid and cell. -/
theorem claim_C7_witness :
    noConflicts exSol ∧ exSol 0 0 ≠ 0 ∧ Core.check_cell exSol 0 0 (exSol 0 0) = true :=
  ⟨by decide, by decide, (claim_C7 exSol 0 0 (by decide) (by decide)).1⟩

/-! Basic lemmas about cell updates, the empty-cell scans and cell counts. -/

theorem update_apply_same (b : Board) (r c : Fin 9) (v : ℕ) : update b r c v r c = v := by
  simp [update, updN]

theorem update_apply_other (b : Board) (r c : Fin 9) (v : ℕ) (x y : Fin 9)
    (h : ¬(x = r ∧ y = c)) : update b r c v x y = b x y := by
  simp only [update, updN]
  rw [if_neg]
  intro hc
  exact h ⟨Fin.ext hc.1, Fin.ext hc.2⟩

theorem update_restore (b : Board) (r c : Fin 9) (w : ℕ) :
    update (update b r c w) r c (b r c) = b := by
  funext x y
  by_cases hx : x = r ∧ y = c
  · obtain ⟨rfl, rfl⟩ := hx
    simp [update, updN]
  · rw [update_apply_other _ _ _ _ _ _ hx, update_apply_other _ _ _ _ _ _ hx]

theorem update_cancel (b : Board) (r c : Fin 9) (v : ℕ) (h : b r c = 0) :
    update (update b r c v) r c 0 = b := by
  have := update_restore b r c v
  rw [h] at this
  exact this

theorem mem_positionsList (p : Fin 9 × Fin 9) : p ∈ positionsList := by
  simp only [positionsList, List.mem_flatMap, List.mem_map, List.mem_finRange, true_and]
  exact ⟨p.1, p.2, rfl⟩

theorem find_empty_none (b : Board) (h : Core.find_empty b = none) :
    ∀ i j : Fin 9, b i j ≠ 0 := by
  intro i j
  have := List.find?_eq_none.mp h (i, j) (mem_positionsList (i, j))
  simpa using this

theorem find_empty_some (b : Board) (r c : Fin 9) (h : Core.find_empty b = some (r, c)) :
    b r c = 0 := by
  have := List.find?_some h
  simpa using this

theorem emptyCount_le (b : Board) : emptyCount b ≤ 81 := by
  have h1 : emptyCount b ≤ (Finset.univ : Finset (Fin 9 × Fin 9)).card :=
    Finset.card_filter_le _ _
  simpa using h1

theorem emptyCount_update_lt (b : Board) (r c : Fin 9) (v : ℕ) (hb : b r c = 0)
    (hv : v ≠ 0) : emptyCount (update b r c v) < emptyCount b := by
  apply Finset.card_lt_card
  rw [Finset.ssubset_def]
  constructor
  · intro p hp
    simp only [Finset.mem_filter, Finset.mem_univ, true_and] at hp ⊢
    by_cases hpc : p.1 = r ∧ p.2 = c
    · exfalso
      rw [show p = (p.1, p.2) from rfl, hpc.1, hpc.2] at hp
      rw [update_apply_same] at hp
      exact hv hp
    · rwa [update_apply_other _ _ _ _ _ _ hpc] at hp
  · intro hss
    have hmem : (r, c) ∈ Finset.univ.filter (fun p : Fin 9 × Fin 9 => b p.1 p.2 = 0) := by
      simp [hb]
    have := hss hmem
    simp only [Finset.mem_filter, Finset.mem_univ, true_and] at this
    rw [update_apply_same] at this
    exact hv this

theorem emptyCount_update_succ (b : Board) (r c : Fin 9) (v : ℕ) (hb : b r c = 0)
    (hv : v ≠ 0) : emptyCount (update b r c v) + 1 = emptyCount b := by
  have h1 : Finset.univ.filter (fun p : Fin 9 × Fin 9 => b p.1 p.2 = 0) =
      insert (r, c) (Finset.univ.filter
        (fun p : Fin 9 × Fin 9 => update b r c v p.1 p.2 = 0)) := by
    ext p
    simp only [Finset.mem_filter, Finset.mem_univ, true_and, Finset.mem_insert]
    constructor
    · intro hp
      by_cases hpc : p.1 = r ∧ p.2 = c
      · left
        rw [show p = (p.1, p.2) from rfl, hpc.1, hpc.2]
      · right
        rwa [update_apply_other _ _ _ _ _ _ hpc]
    · intro hp
      rcases hp with hp | hp
      · rw [hp]
        exact hb
      · by_cases hpc : p.1 = r ∧ p.2 = c
        · exfalso
          rw [show p = (p.1, p.2) from rfl, hpc.1, hpc.2, update_apply_same] at hp
          exact hv hp
        · rwa [update_apply_other _ _ _ _ _ _ hpc] at hp
  have h2 : (r, c) ∉ Finset.univ.filter
      (fun p : Fin 9 × Fin 9 => update b r c v p.1 p.2 = 0) := by
    simp only [Finset.mem_filter, Finset.mem_univ, true_and]
    rw [update_apply_same]
    exact hv
  rw [emptyCount, emptyCount, h1, Finset.card_insert_of_not_mem h2]

theorem emptyCount_add_nonzeroCount (b : Board) : emptyCount b + nonzeroCount b = 81 := by
  unfold emptyCount nonzeroCount
  simp only [ne_eq]
  rw [Finset.filter_card_add_filter_neg_card_eq_card]
  decide

/-! Facts about the MRV scan and candidate lists. -/

theorem get_candidates_length_le (b : Board) (r c : Fin 9) :
    (Sudoku.get_candidates b r c).length ≤ 9 := by
  have h := List.length_filter_le
    (fun v => !(decide ((∃ x : Fin 9, b r x = v) ∨ (∃ x : Fin 9, b x c = v) ∨
              (∃ i j : Fin 9, sameBox r c i j ∧ b i j = v)))) nums1to9
  simpa [Sudoku.get_candidates, nums1to9] using h

theorem find_best_aux_some (b : Board) :
    ∀ (l : List (Fin 9 × Fin 9)) (minc : ℕ) (best : Option (Fin 9 × Fin 9)),
      (∀ q : Fin 9 × Fin 9, best = some q → b q.1 q.2 = 0) →
      ∀ p : Fin 9 × Fin 9, Sudoku.find_best_aux b l minc best = some p → b p.1 p.2 = 0 := by
  intro l
  induction l with
  | nil =>
    intro minc best hbest p hp
    exact hbest p hp
  | cons q rest ih =>
    intro minc best hbest p hp
    simp only [Sudoku.find_best_aux] at hp
    by_cases hq : b q.1 q.2 = 0
    · rw [if_pos hq] at hp
      by_cases hk : (Sudoku.get_candidates b q.1 q.2).length < minc
      · rw [if_pos hk] at hp
        by_cases h1 : (Sudoku.get_candidates b q.1 q.2).length = 1
        · rw [if_pos h1] at hp
          rw [← Option.some.inj hp]
          exact hq
        · rw [if_neg h1] at hp
          refine ih _ _ (fun q2 hq2 => ?_) p hp
          rw [← Option.some.inj hq2]
          exact hq
      · rw [if_neg hk] at hp
        exact ih _ _ hbest p hp
    · rw [if_neg hq] at hp
      exact ih _ _ hbest p hp

theorem find_best_some (b : Board) (r c : Fin 9)
    (h : Sudoku.find_best_empty_cell b = some (r, c)) : b r c = 0 := by
  have := find_best_aux_some b positionsList 10 none (fun q hq => by simp at hq) (r, c) h
  exact this

theorem find_best_aux_none (b : Board) :
    ∀ (l : List (Fin 9 × Fin 9)) (minc : ℕ) (best : Option (Fin 9 × Fin 9)),
      (9 < minc ∨ best ≠ none) →
      Sudoku.find_best_aux b l minc best = none →
      best = none ∧ ∀ p ∈ l, b p.1 p.2 ≠ 0 := by
  intro l
  induction l with
  | nil =>
    intro minc best hinv h
    exact ⟨h, by simp⟩
  | cons q rest ih =>
    intro minc best hinv h
    simp only [Sudoku.find_best_aux] at h
    by_cases hq : b q.1 q.2 = 0
    · rw [if_pos hq] at h
      by_cases hk : (Sudoku.get_candidates b q.1 q.2).length < minc
      · rw [if_pos hk] at h
        by_cases h1 : (Sudoku.get_candidates b q.1 q.2).length = 1
        · rw [if_pos h1] at h
          exact absurd h (by simp)
        · rw [if_neg h1] at h
          have := (ih _ _ (Or.inr (by simp)) h).1
          exact absurd this (by simp)
      · exfalso
        rcases hinv with hm | hb
        · exact hk (lt_of_le_of_lt (get_candidates_length_le b q.1 q.2) hm)
        · rw [if_neg hk] at h
          exact hb (ih _ _ (Or.inr hb) h).1
    · rw [if_neg hq] at h
      obtain ⟨h1, h2⟩ := ih _ _ hinv h
      refine ⟨h1, fun p hp => ?_⟩
      rcases List.mem_cons.mp hp with rfl | hp2
      · exact hq
      · exact h2 p hp2

theorem find_best_none (b : Board) (h : Sudoku.find_best_empty_cell b = none) :
    ∀ i j : Fin 9, b i j ≠ 0 := by
  intro i j
  exact (find_best_aux_none b positionsList 10 none (Or.inl (by omega)) h).2 (i, j)
    (mem_positionsList (i, j))

/-! Restoration lemmas: every backtracking routine leaves the board as it found it. -/

theorem countLoop_restore (recur : Board → ℕ → ℕ × Board) (r c : Fin 9)
    (hrec : ∀ b2 cnt, (recur b2 cnt).2 = b2) :
    ∀ (l : List ℕ) (b : Board) (cnt : ℕ), b r c = 0 →
      (Core.countLoop recur r c l b cnt).2 = b := by
  intro l
  induction l with
  | nil => intro b cnt _; rfl
  | cons v rest ih =>
    intro b cnt hb
    simp only [Core.countLoop]
    by_cases hv : Core.is_valid v (r, c) b
    · rw [if_pos hv, hrec, update_cancel b r c v hb]
      exact ih b _ hb
    · rw [if_neg hv]
      exact ih b cnt hb

theorem countRec_restore : ∀ (fuel : ℕ) (b : Board) (cnt : ℕ),
    (Core.countRec fuel b cnt).2 = b := by
  intro fuel
  induction fuel with
  | zero => intro b cnt; rfl
  | succ f ih =>
    intro b cnt
    simp only [Core.countRec]
    by_cases hc : 1 < cnt
    · rw [if_pos hc]
    · rw [if_neg hc]
      cases hfe : Core.find_empty b with
      | none => simp
      | some p =>
        obtain ⟨r, c⟩ := p
        simp only []
        exact countLoop_restore (Core.countRec f) r c ih nums1to9 b cnt
          (find_empty_some b r c hfe)

theorem countLoopS_restore (recur : Board → ℕ → ℕ × Board) (r c : Fin 9)
    (hrec : ∀ b2 cnt, (recur b2 cnt).2 = b2) :
    ∀ (l : List ℕ) (b : Board) (cnt : ℕ), b r c = 0 →
      (Sudoku.countLoopS recur r c l b cnt).2 = b := by
  intro l
  induction l with
  | nil => intro b cnt _; rfl
  | cons v rest ih =>
    intro b cnt hb
    simp only [Sudoku.countLoopS]
    by_cases hc : 2 ≤ cnt
    · rw [if_pos hc]
    · rw [if_neg hc, hrec, update_cancel b r c v hb]
      exact ih b _ hb

theorem solve_count_restore : ∀ (fuel depth : ℕ) (b : Board) (cnt : ℕ),
    (Sudoku.solve_count fuel depth b cnt).2 = b := by
  intro fuel
  induction fuel with
  | zero => intro depth b cnt; rfl
  | succ f ih =>
    intro depth b cnt
    simp only [Sudoku.solve_count]
    by_cases hc : 2 ≤ cnt
    · rw [if_pos hc]
    · rw [if_neg hc]
      by_cases hd : 100 < depth
      · rw [if_pos hd]
      · rw [if_neg hd]
        cases hfe : Sudoku.find_best_empty_cell b with
        | none => simp
        | some p =>
          obtain ⟨r, c⟩ := p
          simp only []
          exact countLoopS_restore _ r c (fun b2 c2 => ih (depth + 1) b2 c2) _ b cnt
            (find_best_some b r c hfe)

theorem solveLoop_restore (recur : Board → Board × Bool) (r c : Fin 9)
    (hrec : ∀ b2, (recur b2).2 = false → (recur b2).1 = b2) :
    ∀ (l : List ℕ) (b : Board), b r c = 0 →
      (Core.solveLoop recur r c l b).2 = false → (Core.solveLoop recur r c l b).1 = b := by
  intro l
  induction l with
  | nil => intro b _ _; rfl
  | cons v rest ih =>
    intro b hb hfail
    simp only [Core.solveLoop] at hfail ⊢
    by_cases hv : Core.is_valid v (r, c) b
    · rw [if_pos hv] at hfail ⊢
      by_cases h2 : (recur (update b r c v)).2 = true
      · rw [if_pos h2] at hfail
        rw [hfail] at h2
        exact absurd h2 (by simp)
      · rw [if_neg h2] at hfail ⊢
        simp only [Bool.not_eq_true] at h2
        rw [hrec _ h2, update_cancel b r c v hb] at hfail ⊢
        exact ih b hb hfail
    · rw [if_neg hv] at hfail ⊢
      exact ih b hb hfail

theorem solve_recursive_restore (sh : Board → List ℕ) :
    ∀ (fuel : ℕ) (b : Board), (Core.solve_recursive sh fuel b).2 = false →
      (Core.solve_recursive sh fuel b).1 = b := by
  intro fuel
  induction fuel with
  | zero => intro b _; rfl
  | succ f ih =>
    intro b hfail
    simp only [Core.solve_recursive] at hfail ⊢
    cases hfe : Core.find_empty b with
    | none => simp [hfe] at hfail
    | some p =>
      obtain ⟨r, c⟩ := p
      rw [hfe] at hfail
      exact solveLoop_restore _ r c ih _ b (find_empty_some b r c hfe) hfail

theorem solveLoopS_restore (recur : Board → ℕ → Board × ℕ × Bool) (r c : Fin 9)
    (hrec : ∀ b2 att, (recur b2 att).2.2 = false → (recur b2 att).1 = b2) :
    ∀ (l : List ℕ) (b : Board) (att : ℕ), b r c = 0 →
      (Sudoku.solveLoopS recur r c l b att).2.2 = false →
      (Sudoku.solveLoopS recur r c l b att).1 = b := by
  intro l
  induction l with
  | nil => intro b att _ _; rfl
  | cons v rest ih =>
    intro b att hb hfail
    simp only [Sudoku.solveLoopS] at hfail ⊢
    by_cases h2 : (recur (update b r c v) att).2.2 = true
    · rw [if_pos h2] at hfail
      rw [hfail] at h2
      exact absurd h2 (by simp)
    · rw [if_neg h2] at hfail ⊢
      simp only [Bool.not_eq_true] at h2
      rw [hrec _ _ h2, update_cancel b r c v hb] at hfail ⊢
      exact ih b _ hb hfail

theorem solve_recursiveS_restore (sh : ℕ → List ℕ → List ℕ) :
    ∀ (fuel : ℕ) (b : Board) (att : ℕ),
      (Sudoku.solve_recursive sh fuel b att).2.2 = false →
      (Sudoku.solve_recursive sh fuel b att).1 = b := by
  intro fuel
  induction fuel with
  | zero => intro b att _; rfl
  | succ f ih =>
    intro b att hfail
    simp only [Sudoku.solve_recursive] at hfail ⊢
    by_cases hm : Sudoku.max_attempts ≤ att + 1
    · rw [if_pos hm] at hfail ⊢
    · rw [if_neg hm] at hfail ⊢
      cases hfe : Sudoku.find_best_empty_cell b with
      | none => simp [hfe] at hfail
      | some p =>
        obtain ⟨r, c⟩ := p
        rw [hfe] at hfail
        by_cases he : (Sudoku.get_candidates b r c).isEmpty
        · have he2 : Sudoku.get_candidates b r c = [] := by simpa using he
          simp [he2]
        · simp only [if_neg he] at hfail ⊢
          exact solveLoopS_restore _ r c (fun b2 a2 => ih b2 a2) _ b (att + 1)
            (find_best_some b r c hfe) hfail

/-- C8: the fill-mode backtracking solvers of both implementations restore the board
on failure: whenever `_solve_recursive` returns false, the returned board state is
cell-for-cell the entry state, every tried candidate having been reset to 0. -/
theorem claim_C8 :
    (∀ (sh : Board → List ℕ) (fuel : ℕ) (b : Board),
        (Core.solve_recursive sh fuel b).2 = false →
        (Core.solve_recursive sh fuel b).1 = b) ∧
    (∀ (sh : ℕ → List ℕ → List ℕ) (fuel : ℕ) (b : Board) (att : ℕ),
        (Sudoku.solve_recursive sh fuel b att).2.2 = false →
        (Sudoku.solve_recursive sh fuel b att).1 = b) :=
  ⟨fun sh fuel b => solve_recursive_restore sh fuel b,
   fun sh fuel b att => solve_recursiveS_restore sh fuel b att⟩

/-- Witness for C8 on a concrete unsolvable board where the solver fails. -/
theorem claim_C8_witness :
    (Core.solve_recursive (fun _ => nums1to9) 82 badB).2 = false ∧
    (Core.solve_recursive (fun _ => nums1to9) 82 badB).1 = badB :=
  ⟨by decide, claim_C8.1 (fun _ => nums1to9) 82 badB (by decide)⟩

/-- C10: the counting searches of both implementations leave their board argument
cell-for-cell unchanged on return: the board component of the state after
`_count_solutions_recursive` (src/core) and after `solve_count`
(src/sudoku/core, inside `_has_unique_solution`) equals the board at entry;
moreover both wrappers run on a copy of the caller board. -/
theorem claim_C10 :
    (∀ (fuel : ℕ) (b : Board) (cnt : ℕ), (Core.countRec fuel b cnt).2 = b) ∧
    (∀ (fuel depth : ℕ) (b : Board) (cnt : ℕ),
        (Sudoku.solve_count fuel depth b cnt).2 = b) :=
  ⟨countRec_restore, solve_count_restore⟩

/-! The depth guard of the counting search is unreachable. -/

theorem mem_nums1to9 (v : ℕ) : v ∈ nums1to9 ↔ 1 ≤ v ∧ v ≤ 9 := by
  simp only [nums1to9, List.mem_map, List.mem_range]
  constructor
  · rintro ⟨a, ha, rfl⟩
    omega
  · intro hv
    exact ⟨v - 1, by omega, by omega⟩

theorem mem_get_candidates_sub (b : Board) (r c : Fin 9) (v : ℕ)
    (hv : v ∈ Sudoku.get_candidates b r c) : v ∈ nums1to9 :=
  (List.mem_filter.mp hv).1

theorem countLoopS_eq_noguard (recurG : Board → ℕ → ℕ × Board) (recurN : Board → ℕ → ℕ)
    (r c : Fin 9) (hrest : ∀ b2 cnt, (recurG b2 cnt).2 = b2) :
    ∀ (l : List ℕ) (b : Board) (cnt : ℕ), b r c = 0 →
      (∀ v ∈ l, ∀ cnt2 : ℕ, (recurG (update b r c v) cnt2).1 = recurN (update b r c v) cnt2) →
      (Sudoku.countLoopS recurG r c l b cnt).1 = Sudoku.countLoopNoguard recurN r c l b cnt := by
  intro l
  induction l with
  | nil => intro b cnt _ _; rfl
  | cons v rest ih =>
    intro b cnt hb heq
    simp only [Sudoku.countLoopS, Sudoku.countLoopNoguard]
    by_cases hc : 2 ≤ cnt
    · rw [if_pos hc, if_pos hc]
    · rw [if_neg hc, if_neg hc]
      rw [hrest, update_cancel b r c v hb]
      rw [heq v (List.mem_cons_self v rest) cnt]
      exact ih b _ hb (fun w hw cnt2 => heq w (List.mem_cons_of_mem v hw) cnt2)

theorem solve_count_eq_noguard : ∀ (fuel depth : ℕ) (b : Board) (cnt : ℕ),
    depth + emptyCount b ≤ 100 →
    (Sudoku.solve_count fuel depth b cnt).1 = Sudoku.solve_count_noguard fuel b cnt := by
  intro fuel
  induction fuel with
  | zero => intro depth b cnt _; rfl
  | succ f ih =>
    intro depth b cnt hd
    simp only [Sudoku.solve_count, Sudoku.solve_count_noguard]
    by_cases hc : 2 ≤ cnt
    · rw [if_pos hc, if_pos hc]
    · rw [if_neg hc, if_neg hc]
      rw [if_neg (show ¬(100 < depth) by omega)]
      cases hfe : Sudoku.find_best_empty_cell b with
      | none => rfl
      | some p =>
        obtain ⟨r, c⟩ := p
        have hb : b r c = 0 := find_best_some b r c hfe
        refine countLoopS_eq_noguard _ _ r c
          (fun b2 c2 => solve_count_restore f (depth + 1) b2 c2) _ b cnt hb ?_
        intro v hv cnt2
        have hv9 := (mem_nums1to9 v).mp (mem_get_candidates_sub b r c v hv)
        have hlt := emptyCount_update_succ b r c v hb (by omega)
        exact ih (depth + 1) (update b r c v) cnt2 (by omega)

/-- C9: the recursion-depth guard in `solve_count` of `_has_unique_solution` is
unreachable: starting from depth 0 the guarded search computes the same solution
count as the guard-free search on every board (the depth is bounded by the number
of empty cells, at most 81), so the uniqueness verdict is never corrupted by
truncation. -/
theorem claim_C9 :
    (∀ (b : Board) (cnt : ℕ),
        (Sudoku.solve_count 82 0 b cnt).1 = Sudoku.solve_count_noguard 82 b cnt) ∧
    (∀ b : Board,
        Sudoku.has_unique_solution b = true ↔ Sudoku.solve_count_noguard 82 b 0 = 1) := by
  have h : ∀ (b : Board) (cnt : ℕ),
      (Sudoku.solve_count 82 0 b cnt).1 = Sudoku.solve_count_noguard 82 b cnt := by
    intro b cnt
    exact solve_count_eq_noguard 82 0 b cnt (by have := emptyCount_le b; omega)
  refine ⟨h, fun b => ?_⟩
  rw [Sudoku.has_unique_solution, beq_iff_eq, h b 0]

/-! Units of the grid: nodup cell lists, membership, and value facts on complete
grids. -/

theorem rowCells_nodup (i : Fin 9) : (rowCells i).Nodup :=
  (List.nodup_finRange 9).map (fun a b hab => (Prod.ext_iff.mp hab).2)

theorem colCells_nodup (j : Fin 9) : (colCells j).Nodup :=
  (List.nodup_finRange 9).map (fun a b hab => (Prod.ext_iff.mp hab).1)

theorem boxCells_nodup (bi bj : Fin 3) : (boxCells bi bj).Nodup := by
  fin_cases bi <;> fin_cases bj <;> decide

theorem mem_rowCells_iff (i : Fin 9) (p : Fin 9 × Fin 9) : p ∈ rowCells i ↔ p.1 = i := by
  simp only [rowCells, List.mem_map, List.mem_finRange, true_and]
  constructor
  · rintro ⟨j, rfl⟩
    rfl
  · intro h
    exact ⟨p.2, by rw [← h]⟩

theorem mem_colCells_iff (j : Fin 9) (p : Fin 9 × Fin 9) : p ∈ colCells j ↔ p.2 = j := by
  simp only [colCells, List.mem_map, List.mem_finRange, true_and]
  constructor
  · rintro ⟨i, rfl⟩
    rfl
  · intro h
    exact ⟨p.1, by rw [← h]⟩

theorem mem_boxCells_iff (bi bj : Fin 3) (p : Fin 9 × Fin 9) :
    p ∈ boxCells bi bj ↔ p.1.val / 3 = bi.val ∧ p.2.val / 3 = bj.val := by
  revert p
  fin_cases bi <;> fin_cases bj <;> decide

theorem specComplete_val_mem (s : Board) (hs : specComplete s) (i j : Fin 9) :
    s i j ∈ nums1to9 :=
  (hs.2.1 i).mem_iff.mp (List.mem_map.mpr ⟨(i, j), (mem_rowCells_iff i (i, j)).mpr rfl, rfl⟩)

theorem specComplete_val_bounds (s : Board) (hs : specComplete s) (i j : Fin 9) :
    1 ≤ s i j ∧ s i j ≤ 9 :=
  (mem_nums1to9 _).mp (specComplete_val_mem s hs i j)

theorem valsAt_inj_of_perm (b : Board) (cells : List (Fin 9 × Fin 9))
    (hperm : (valsAt b cells).Perm nums1to9) :
    ∀ p ∈ cells, ∀ q ∈ cells, b p.1 p.2 = b q.1 q.2 → p = q := by
  have hvn : (valsAt b cells).Nodup := (hperm.nodup_iff).mpr (by decide)
  exact fun p hp q hq h => List.inj_on_of_nodup_map hvn hp hq h

theorem specComplete_unit_ne (s : Board) (hs : specComplete s) (r c i j : Fin 9)
    (hne : ¬(i = r ∧ j = c)) (hunit : i = r ∨ j = c ∨ sameBox r c i j) :
    s i j ≠ s r c := by
  intro heq
  rcases hunit with hi | hj | hb
  · subst hi
    exact hne ⟨rfl, (Prod.ext_iff.mp (valsAt_inj_of_perm s (rowCells i) (hs.2.1 i)
      (i, j) ((mem_rowCells_iff i (i, j)).mpr rfl)
      (i, c) ((mem_rowCells_iff i (i, c)).mpr rfl) heq)).2⟩
  · subst hj
    exact hne ⟨(Prod.ext_iff.mp (valsAt_inj_of_perm s (colCells j) (hs.2.2.1 j)
      (i, j) ((mem_colCells_iff j (i, j)).mpr rfl)
      (r, j) ((mem_colCells_iff j (r, j)).mpr rfl) heq)).1, rfl⟩
  · have hr3 : r.val / 3 < 3 := by have := r.isLt; omega
    have hc3 : c.val / 3 < 3 := by have := c.isLt; omega
    have hmem1 : (i, j) ∈ boxCells ⟨r.val / 3, hr3⟩ ⟨c.val / 3, hc3⟩ := by
      rw [mem_boxCells_iff]
      exact ⟨hb.1, hb.2⟩
    have hmem2 : (r, c) ∈ boxCells ⟨r.val / 3, hr3⟩ ⟨c.val / 3, hc3⟩ := by
      rw [mem_boxCells_iff]
      exact ⟨rfl, rfl⟩
    have := valsAt_inj_of_perm s (boxCells ⟨r.val / 3, hr3⟩ ⟨c.val / 3, hc3⟩)
      (hs.2.2.2 ⟨r.val / 3, hr3⟩ ⟨c.val / 3, hc3⟩) (i, j) hmem1 (r, c) hmem2 heq
    exact hne ⟨(Prod.ext_iff.mp this).1, (Prod.ext_iff.mp this).2⟩

theorem specComplete_validBoard (s : Board) (hs : specComplete s) : ValidBoard s := by
  refine ⟨fun i j => (specComplete_val_bounds s hs i j).2, ?_⟩
  intro r c h0 i j hne hunit
  refine specComplete_unit_ne s hs r c i j ?_ hunit
  rintro ⟨rfl, rfl⟩
  rcases hne with h | h
  · exact h rfl
  · exact h rfl

theorem valid_update (b : Board) (r c : Fin 9) (v : ℕ) (hv : ValidBoard b)
    (hb : b r c = 0) (hv9 : 1 ≤ v ∧ v ≤ 9) (hnc : specNoConflict b r c v) :
    ValidBoard (update b r c v) := by
  constructor
  · intro i j
    by_cases hij : i = r ∧ j = c
    · obtain ⟨rfl, rfl⟩ := hij
      rw [update_apply_same]
      exact hv9.2
    · rw [update_apply_other _ _ _ _ _ _ hij]
      exact hv.1 i j
  · intro x y hxy i j hne hunit
    by_cases hxyrc : x = r ∧ y = c
    · obtain ⟨rfl, rfl⟩ := hxyrc
      rw [update_apply_same]
      have hij : ¬(i = x ∧ j = y) := by
        rintro ⟨rfl, rfl⟩
        rcases hne with h | h
        · exact h rfl
        · exact h rfl
      rw [update_apply_other _ _ _ _ _ _ hij]
      exact hnc i j hne hunit
    · rw [update_apply_other _ _ _ _ _ _ hxyrc] at hxy ⊢
      by_cases hij : i = r ∧ j = c
      · obtain ⟨rfl, rfl⟩ := hij
        rw [update_apply_same]
        have hx2 := hnc x y
          (by rcases hne with h | h
              · exact Or.inl (fun e => h e.symm)
              · exact Or.inr (fun e => h e.symm))
          (by rcases hunit with h | h | h
              · exact Or.inl h.symm
              · exact Or.inr (Or.inl h.symm)
              · exact Or.inr (Or.inr ⟨h.1.symm, h.2.symm⟩))
        exact fun h => hx2 h.symm
      · rw [update_apply_other _ _ _ _ _ _ hij]
        exact hv.2 x y hxy i j hne hunit

theorem complete_of_full_valid (b : Board) (hv : ValidBoard b)
    (hf : ∀ i j : Fin 9, b i j ≠ 0) : specComplete b := by
  have hvals : ∀ i j : Fin 9, b i j ∈ nums1to9 := fun i j =>
    (mem_nums1to9 _).mpr ⟨Nat.one_le_iff_ne_zero.mpr (hf i j), hv.1 i j⟩
  have hunit : ∀ cells : List (Fin 9 × Fin 9), cells.Nodup →
      (∀ p ∈ cells, ∀ q ∈ cells, p ≠ q →
        (p.1 = q.1 ∨ p.2 = q.2 ∨ sameBox q.1 q.2 p.1 p.2)) →
      (valsAt b cells).length = 9 → (valsAt b cells).Perm nums1to9 := by
    intro cells hnd hsame hlen
    have hinj : ∀ p ∈ cells, ∀ q ∈ cells, b p.1 p.2 = b q.1 q.2 → p = q := by
      intro p hp q hq heq
      by_contra hne
      have hpair : p.1 ≠ q.1 ∨ p.2 ≠ q.2 := by
        by_contra hcon
        rw [not_or, not_not, not_not] at hcon
        exact hne (Prod.ext_iff.mpr hcon)
      exact hv.2 q.1 q.2 (hf q.1 q.2) p.1 p.2 hpair (hsame p hp q hq hne) heq
    have hnodup : (valsAt b cells).Nodup :=
      List.Nodup.map_on (fun x hx y hy hxy => hinj x hx y hy hxy) hnd
    have hsub : (valsAt b cells).toFinset ⊆ nums1to9.toFinset := by
      intro v hvm
      rw [List.mem_toFinset] at hvm ⊢
      obtain ⟨p, _, rfl⟩ := List.mem_map.mp hvm
      exact hvals p.1 p.2
    have hcard : nums1to9.toFinset.card ≤ (valsAt b cells).toFinset.card := by
      rw [List.toFinset_card_of_nodup hnodup, hlen]
      decide
    exact List.perm_of_nodup_nodup_toFinset_eq hnodup (by decide)
      (Finset.eq_of_subset_of_card_le hsub hcard)
  refine ⟨hf, fun i => ?_, fun j => ?_, fun bi bj => ?_⟩
  · refine hunit (rowCells i) (rowCells_nodup i) ?_ (valsAt_row_length b i)
    intro p hp q hq _
    left
    rw [(mem_rowCells_iff i p).mp hp, (mem_rowCells_iff i q).mp hq]
  · refine hunit (colCells j) (colCells_nodup j) ?_ (valsAt_col_length b j)
    intro p hp q hq _
    right; left
    rw [(mem_colCells_iff j p).mp hp, (mem_colCells_iff j q).mp hq]
  · refine hunit (boxCells bi bj) (boxCells_nodup bi bj) ?_ (valsAt_box_length b bi bj)
    intro p hp q hq _
    right; right
    obtain ⟨hp1, hp2⟩ := (mem_boxCells_iff bi bj p).mp hp
    obtain ⟨hq1, hq2⟩ := (mem_boxCells_iff bi bj q).mp hq
    exact ⟨by rw [hp1, hq1], by rw [hp2, hq2]⟩

theorem isCompletionB_iff (b : Board) (f : Fin 9 × Fin 9 → Fin 10) :
    isCompletionB b f = true ↔ IsCompletionOf b (toBoard f) := by
  simp [isCompletionB]

theorem numCompletions_full (b : Board) (hs : specComplete b) : numCompletions b = 1 := by
  rw [numCompletions, Finset.card_eq_one]
  refine ⟨fun q => ⟨b q.1 q.2, Nat.lt_succ_of_le (specComplete_val_bounds b hs q.1 q.2).2⟩, ?_⟩
  ext f
  simp only [Finset.mem_filter, Finset.mem_univ, true_and, Finset.mem_singleton,
    isCompletionB_iff]
  constructor
  · rintro ⟨hext, _⟩
    funext q
    exact Fin.ext (hext q.1 q.2 (hs.1 q.1 q.2))
  · rintro rfl
    exact ⟨fun i j _ => rfl, hs⟩

theorem numCompletions_invalid (b : Board) (r c : Fin 9) (v : ℕ) (hb : b r c = 0)
    (hv1 : 1 ≤ v) (hinv : Core.is_valid v (r, c) b = false) :
    numCompletions (update b r c v) = 0 := by
  rw [numCompletions, Finset.card_eq_zero, Finset.filter_eq_empty_iff]
  intro f _
  rw [isCompletionB_iff]
  rintro ⟨hext, hcomp⟩
  have hnc : ¬ specNoConflict b r c v := by
    intro hcon
    rw [(is_valid_iff b r c v).mpr hcon] at hinv
    exact Bool.true_eq_false.mp hinv
  unfold specNoConflict at hnc
  push_neg at hnc
  obtain ⟨i, j, hne, hunit, hbv⟩ := hnc
  have hijrc : ¬(i = r ∧ j = c) := by
    rintro ⟨rfl, rfl⟩
    rw [hb] at hbv
    omega
  have h1 : toBoard f i j = v := by
    have := hext i j (by rw [update_apply_other _ _ _ _ _ _ hijrc, hbv]; omega)
    rwa [update_apply_other _ _ _ _ _ _ hijrc, hbv] at this
  have h2 : toBoard f r c = v := by
    have := hext r c (by rw [update_apply_same]; omega)
    rwa [update_apply_same] at this
  exact specComplete_unit_ne (toBoard f) hcomp r c i j hijrc hunit (h1.trans h2.symm)

theorem numCompletions_partition (b : Board) (r c : Fin 9) (hb : b r c = 0) :
    numCompletions b =
      (nums1to9.map (fun v => numCompletions (update b r c v))).sum := by
  have hsets : (Finset.univ.filter
        (fun f : Fin 9 × Fin 9 → Fin 10 => isCompletionB b f = true))
      = nums1to9.toFinset.biUnion (fun v => Finset.univ.filter
          (fun f : Fin 9 × Fin 9 → Fin 10 => isCompletionB (update b r c v) f = true)) := by
    ext f
    simp only [Finset.mem_filter, Finset.mem_univ, true_and, Finset.mem_biUnion,
      List.mem_toFinset, isCompletionB_iff]
    constructor
    · rintro ⟨hext, hcomp⟩
      refine ⟨toBoard f r c, specComplete_val_mem _ hcomp r c, ?_, hcomp⟩
      intro i j hij
      by_cases hrc : i = r ∧ j = c
      · obtain ⟨rfl, rfl⟩ := hrc
        rw [update_apply_same]
      · rw [update_apply_other _ _ _ _ _ _ hrc] at hij ⊢
        exact hext i j hij
    · rintro ⟨v, _, hext, hcomp⟩
      refine ⟨?_, hcomp⟩
      intro i j hij
      have hrc : ¬(i = r ∧ j = c) := by
        rintro ⟨rfl, rfl⟩
        exact hij hb
      have := hext i j (by rw [update_apply_other _ _ _ _ _ _ hrc]; exact hij)
      rwa [update_apply_other _ _ _ _ _ _ hrc] at this
  have hdisj : ∀ x ∈ nums1to9.toFinset, ∀ y ∈ nums1to9.toFinset, x ≠ y →
      Disjoint (Finset.univ.filter
          (fun f : Fin 9 × Fin 9 → Fin 10 => isCompletionB (update b r c x) f = true))
        (Finset.univ.filter
          (fun f : Fin 9 × Fin 9 → Fin 10 => isCompletionB (update b r c y) f = true)) := by
    intro x hx y hy hxy
    rw [Finset.disjoint_left]
    rintro f hf hg
    simp only [Finset.mem_filter, Finset.mem_univ, true_and, isCompletionB_iff] at hf hg
    have hx1 : 1 ≤ x := ((mem_nums1to9 x).mp (List.mem_toFinset.mp hx)).1
    have hy1 : 1 ≤ y := ((mem_nums1to9 y).mp (List.mem_toFinset.mp hy)).1
    have h1 : toBoard f r c = x := by
      have := hf.1 r c (by rw [update_apply_same]; omega)
      rwa [update_apply_same] at this
    have h2 : toBoard f r c = y := by
      have := hg.1 r c (by rw [update_apply_same]; omega)
      rwa [update_apply_same] at this
    exact hxy (h1.symm.trans h2)
  rw [numCompletions, hsets, Finset.card_biUnion hdisj,
    List.sum_toFinset _ (show nums1to9.Nodup by decide)]
  rfl

theorem completion_unique (p sol : Board) (hN : numCompletions p = 1)
    (hsol : IsCompletionOf p sol) : ∀ s : Board, IsCompletionOf p s ↔ s = sol := by
  have key : ∀ s : Board, IsCompletionOf p s → s = sol := by
    intro s hs
    have hb10 : ∀ i j : Fin 9, s i j < 10 :=
      fun i j => Nat.lt_succ_of_le (specComplete_val_bounds s hs.2 i j).2
    have hb10s : ∀ i j : Fin 9, sol i j < 10 :=
      fun i j => Nat.lt_succ_of_le (specComplete_val_bounds sol hsol.2 i j).2
    have hts : toBoard (fun q => (⟨s q.1 q.2, hb10 q.1 q.2⟩ : Fin 10)) = s := rfl
    have htsol : toBoard (fun q => (⟨sol q.1 q.2, hb10s q.1 q.2⟩ : Fin 10)) = sol := rfl
    have hN2 := hN
    rw [numCompletions] at hN2
    have hle := Finset.card_le_one.mp (le_of_eq hN2)
    have heq : (fun q : Fin 9 × Fin 9 => (⟨s q.1 q.2, hb10 q.1 q.2⟩ : Fin 10)) =
        (fun q : Fin 9 × Fin 9 => (⟨sol q.1 q.2, hb10s q.1 q.2⟩ : Fin 10)) := by
      apply hle
      · refine Finset.mem_filter.mpr ⟨Finset.mem_univ _, ?_⟩
        rw [isCompletionB_iff, hts]
        exact hs
      · refine Finset.mem_filter.mpr ⟨Finset.mem_univ _, ?_⟩
        rw [isCompletionB_iff, htsol]
        exact hsol
    funext i j
    exact congrArg Fin.val (congrFun heq (i, j))
  intro s
  exact ⟨key s, fun h => h ▸ hsol⟩

/-! Correctness of the counting solver of `src/core/generator.py`. -/

theorem countLoop_le (recur : Board → ℕ → ℕ × Board) (r c : Fin 9)
    (hrec : ∀ b2 cnt2, cnt2 ≤ 2 → (recur b2 cnt2).1 ≤ 2) :
    ∀ (l : List ℕ) (b : Board) (cnt : ℕ), cnt ≤ 2 →
      (Core.countLoop recur r c l b cnt).1 ≤ 2 := by
  intro l
  induction l with
  | nil => intro b cnt h; exact h
  | cons v rest ih =>
    intro b cnt hcnt
    simp only [Core.countLoop]
    by_cases hv : Core.is_valid v (r, c) b
    · rw [if_pos hv]
      exact ih _ _ (hrec _ _ hcnt)
    · rw [if_neg hv]
      exact ih b cnt hcnt

theorem countRec_le : ∀ (fuel : ℕ) (b : Board) (cnt : ℕ), cnt ≤ 2 →
    (Core.countRec fuel b cnt).1 ≤ 2 := by
  intro fuel
  induction fuel with
  | zero => intro b cnt h; exact h
  | succ f ih =>
    intro b cnt hcnt
    simp only [Core.countRec]
    by_cases hc : 1 < cnt
    · rw [if_pos hc]
      exact hcnt
    · rw [if_neg hc]
      cases hfe : Core.find_empty b with
      | none =>
        show cnt + 1 ≤ 2
        omega
      | some p =>
        obtain ⟨r, c⟩ := p
        exact countLoop_le (Core.countRec f) r c ih nums1to9 b cnt hcnt

theorem count_solutions_le_two (b : Board) : Core.count_solutions b ≤ 2 :=
  countRec_le 82 b 0 (by omega)

theorem countLoop_min (f : ℕ) (r c : Fin 9)
    (ih : ∀ (b2 : Board) (cnt2 : ℕ), emptyCount b2 < f → ValidBoard b2 → cnt2 ≤ 2 →
      (Core.countRec f b2 cnt2).1 = min (cnt2 + numCompletions b2) 2) :
    ∀ (l : List ℕ) (b : Board) (cnt : ℕ),
      (∀ v ∈ l, 1 ≤ v ∧ v ≤ 9) → b r c = 0 → emptyCount b ≤ f → ValidBoard b → cnt ≤ 2 →
      (Core.countLoop (Core.countRec f) r c l b cnt).1 =
        min (cnt + (l.map (fun v => numCompletions (update b r c v))).sum) 2 := by
  intro l
  induction l with
  | nil =>
    intro b cnt _ _ _ _ hcnt
    simp only [Core.countLoop, List.map_nil, List.sum_nil]
    omega
  | cons v rest ihl =>
    intro b cnt hmem hb hec hv hcnt
    simp only [Core.countLoop, List.map_cons, List.sum_cons]
    have hv9 := hmem v (List.mem_cons_self v rest)
    by_cases hval : Core.is_valid v (r, c) b
    · rw [if_pos hval]
      have hupd_valid : ValidBoard (update b r c v) :=
        valid_update b r c v hv hb hv9 ((is_valid_iff b r c v).mp hval)
      have hsucc := emptyCount_update_succ b r c v hb (by omega)
      have hrec := ih (update b r c v) cnt (by omega) hupd_valid hcnt
      rw [countRec_restore, update_cancel b r c v hb, hrec]
      rw [ihl b (min (cnt + numCompletions (update b r c v)) 2)
        (fun w hw => hmem w (List.mem_cons_of_mem v hw)) hb hec hv (by omega)]
      omega
    · rw [if_neg hval]
      have hfalse : Core.is_valid v (r, c) b = false := by
        simpa using hval
      have hz : numCompletions (update b r c v) = 0 :=
        numCompletions_invalid b r c v hb (by omega) hfalse
      rw [ihl b cnt (fun w hw => hmem w (List.mem_cons_of_mem v hw)) hb hec hv hcnt, hz]
      omega

theorem countRec_eq_min : ∀ (fuel : ℕ) (b : Board) (cnt : ℕ),
    emptyCount b < fuel → ValidBoard b → cnt ≤ 2 →
    (Core.countRec fuel b cnt).1 = min (cnt + numCompletions b) 2 := by
  intro fuel
  induction fuel with
  | zero =>
    intro b cnt h
    exact absurd h (Nat.not_lt_zero _)
  | succ f ih =>
    intro b cnt hfuel hv hcnt
    simp only [Core.countRec]
    by_cases hc : 1 < cnt
    · rw [if_pos hc]
      omega
    · rw [if_neg hc]
      cases hfe : Core.find_empty b with
      | none =>
        have hfull : ∀ i j : Fin 9, b i j ≠ 0 := find_empty_none b hfe
        have hN : numCompletions b = 1 :=
          numCompletions_full b (complete_of_full_valid b hv hfull)
        rw [hN]
        simp only []
        omega
      | some p =>
        obtain ⟨r, c⟩ := p
        have hb : b r c = 0 := find_empty_some b r c hfe
        rw [numCompletions_partition b r c hb]
        exact countLoop_min f r c ih nums1to9 b cnt
          (fun v hv2 => (mem_nums1to9 v).mp hv2) hb (by omega) hv hcnt

theorem count_solutions_min (b : Board) (hv : ValidBoard b) :
    Core.count_solutions b = min (numCompletions b) 2 := by
  have h := countRec_eq_min 82 b 0 (by have := emptyCount_le b; omega) hv (by omega)
  simpa [Core.count_solutions] using h

/-- C5 counterexample: on the all-ones grid (no empty cell, every unit invalid) the
counting solver reports 1 solution although the true number of completions is 0, so
`count_solutions` does not compute `min(N, 2)` on arbitrary grids. -/
theorem claim_C5_counterexample :
    Core.count_solutions onesB = 1 ∧ numCompletions onesB = 0 ∧
    Core.count_solutions onesB ≠ min (numCompletions onesB) 2 := by
  have h1 : Core.count_solutions onesB = 1 := by decide
  have h2 : numCompletions onesB = 0 := by
    rw [numCompletions, Finset.card_eq_zero, Finset.filter_eq_empty_iff]
    intro f _
    rw [isCompletionB_iff]
    rintro ⟨hext, hcomp⟩
    have ha : toBoard f 0 0 = 1 := hext 0 0 (by decide)
    have hb : toBoard f 0 1 = 1 := hext 0 1 (by decide)
    exact specComplete_unit_ne (toBoard f) hcomp 0 0 0 1 (by decide) (Or.inl rfl)
      (hb.trans ha.symm)
  refine ⟨h1, h2, ?_⟩
  rw [h1, h2]
  decide

/-- C5 (amended): the counting solver never returns more than the cap 2; and on
every conflict-free well-formed grid it returns exactly `min(N, 2)` where `N` is
the true number of completions, so it reports 0 or 1 exactly when the grid has 0
or 1 completions and stops at the cap otherwise. -/
theorem claim_C5 :
    (∀ b : Board, Core.count_solutions b ≤ 2) ∧
    (∀ b : Board, ValidBoard b → Core.count_solutions b = min (numCompletions b) 2) :=
  ⟨count_solutions_le_two, count_solutions_min⟩

/-- Witness for C5 on the example solution with one cell cleared. -/
theorem claim_C5_witness :
    ValidBoard exPuzzle ∧ Core.count_solutions exPuzzle = min (numCompletions exPuzzle) 2 :=
  ⟨by decide, claim_C5.2 exPuzzle (by decide)⟩

/-! The carving procedure of `src/core/generator.py`. -/

theorem count_solutions_complete (b : Board) (hs : specComplete b) :
    Core.count_solutions b = 1 := by
  rw [count_solutions_min b (specComplete_validBoard b hs), numCompletions_full b hs]
  decide

theorem emptyCount_of_full (b : Board) (hf : ∀ i j : Fin 9, b i j ≠ 0) :
    emptyCount b = 0 := by
  rw [emptyCount, Finset.card_eq_zero, Finset.filter_eq_empty_iff]
  intro q _
  exact hf q.1 q.2

theorem emptyCount_zero_out (b : Board) (r c : Fin 9) (h : b r c ≠ 0) :
    emptyCount (update b r c 0) = emptyCount b + 1 := by
  have h2 := emptyCount_update_succ (update b r c 0) r c (b r c)
    (update_apply_same b r c 0) h
  rw [update_restore] at h2
  omega

theorem valid_subboard (sol p : Board) (hs : ValidBoard sol)
    (hagree : ∀ i j : Fin 9, p i j = sol i j ∨ p i j = 0) : ValidBoard p := by
  constructor
  · intro i j
    rcases hagree i j with h | h
    · rw [h]
      exact hs.1 i j
    · rw [h]
      omega
  · intro r c h0 i j hne hunit heq
    rcases hagree r c with hrc | hrc
    · rcases hagree i j with hij | hij
      · refine hs.2 r c ?_ i j hne hunit ?_
        · rw [← hrc]
          exact h0
        · rw [← hij, ← hrc]
          exact heq
      · rw [hij] at heq
        exact h0 heq.symm
    · exact h0 hrc

theorem carvePass_invariant (sol : Board) (target : ℕ) :
    ∀ (l : List (Fin 9 × Fin 9)) (puzzle : Board) (removed : ℕ) (p : Board),
      (∀ i j : Fin 9, puzzle i j = sol i j ∨ puzzle i j = 0) →
      Core.count_solutions puzzle = 1 →
      Core.carvePass target l puzzle removed = some p →
      (∀ i j : Fin 9, p i j = sol i j ∨ p i j = 0) ∧ Core.count_solutions p = 1 := by
  intro l
  induction l with
  | nil =>
    intro puzzle removed p hagree hcnt hres
    simp only [Core.carvePass] at hres
    by_cases hrem : removed < target
    · rw [if_pos hrem] at hres
      exact absurd hres (by simp)
    · rw [if_neg hrem] at hres
      obtain rfl := Option.some.inj hres
      exact ⟨hagree, hcnt⟩
  | cons q rest ih =>
    intro puzzle removed p hagree hcnt hres
    simp only [Core.carvePass] at hres
    by_cases hu : Core.count_solutions (update puzzle q.1 q.2 0) = 1
    · rw [if_pos hu] at hres
      have hagree2 : ∀ i j : Fin 9,
          update puzzle q.1 q.2 0 i j = sol i j ∨ update puzzle q.1 q.2 0 i j = 0 := by
        intro i j
        by_cases hij : i = q.1 ∧ j = q.2
        · obtain ⟨rfl, rfl⟩ := hij
          right
          exact update_apply_same puzzle _ _ 0
        · rw [update_apply_other _ _ _ _ _ _ hij]
          exact hagree i j
      by_cases htar : removed + 1 = target
      · rw [if_pos htar] at hres
        obtain rfl := Option.some.inj hres
        exact ⟨hagree2, hu⟩
      · rw [if_neg htar] at hres
        exact ih _ _ p hagree2 hu hres
    · rw [if_neg hu, update_restore] at hres
      exact ih puzzle removed p hagree hcnt hres

theorem carvePass_zeros (target : ℕ) :
    ∀ (l : List (Fin 9 × Fin 9)) (puzzle : Board) (removed : ℕ) (p : Board),
      l.Nodup → (∀ q ∈ l, puzzle q.1 q.2 ≠ 0) → emptyCount puzzle = removed →
      removed < target →
      Core.carvePass target l puzzle removed = some p → emptyCount p = target := by
  intro l
  induction l with
  | nil =>
    intro puzzle removed p _ _ _ hlt hres
    simp only [Core.carvePass] at hres
    rw [if_pos hlt] at hres
    exact absurd hres (by simp)
  | cons q rest ih =>
    intro puzzle removed p hnd hpos hemp hlt hres
    simp only [Core.carvePass] at hres
    have hq : puzzle q.1 q.2 ≠ 0 := hpos q (List.mem_cons_self q rest)
    by_cases hu : Core.count_solutions (update puzzle q.1 q.2 0) = 1
    · rw [if_pos hu] at hres
      have hemp2 : emptyCount (update puzzle q.1 q.2 0) = removed + 1 := by
        rw [emptyCount_zero_out puzzle q.1 q.2 hq, hemp]
      by_cases htar : removed + 1 = target
      · rw [if_pos htar] at hres
        obtain rfl := Option.some.inj hres
        rw [hemp2, htar]
      · rw [if_neg htar] at hres
        refine ih _ _ p (List.Nodup.of_cons hnd) ?_ hemp2 (by omega) hres
        intro w hw
        have hwq : ¬(w.1 = q.1 ∧ w.2 = q.2) := by
          rintro ⟨h1, h2⟩
          exact (List.nodup_cons.mp hnd).1 (by rwa [← Prod.ext_iff.mpr ⟨h1, h2⟩])
        rw [update_apply_other _ _ _ _ _ _ hwq]
        exact hpos w (List.mem_cons_of_mem q hw)
    · rw [if_neg hu, update_restore] at hres
      exact ih puzzle removed p (List.Nodup.of_cons hnd)
        (fun w hw => hpos w (List.mem_cons_of_mem q hw)) hemp hlt hres

theorem gpfs_some (sol : Board) (ratio : ℚ) (sh : ℕ → List (Fin 9 × Fin 9)) :
    ∀ (fuel : ℕ) (p : Board),
      Core.generate_puzzle_from_solution sol ratio sh fuel = some p →
      ∃ k : ℕ, Core.carvePass (Core.cellsToRemove ratio) (sh k) sol 0 = some p := by
  intro fuel
  induction fuel with
  | zero =>
    intro p hres
    exact absurd hres (by simp [Core.generate_puzzle_from_solution])
  | succ k ih =>
    intro p hres
    simp only [Core.generate_puzzle_from_solution] at hres
    cases hcp : Core.carvePass (Core.cellsToRemove ratio) (sh k) sol 0 with
    | some q =>
      rw [hcp] at hres
      exact ⟨k, by rw [hcp, Option.some.inj hres]⟩
    | none =>
      rw [hcp] at hres
      exact ih p hres

/-- C1: every puzzle returned by `generate_puzzle_from_solution` from a complete
valid solution agrees with the solution on all its nonzero cells, the counting
solver reports exactly 1 solution for it, and its unique completion is the
solution itself. -/
theorem claim_C1 (sol : Board) (ratio : ℚ) (sh : ℕ → List (Fin 9 × Fin 9)) (fuel : ℕ)
    (p : Board) (hsol : specComplete sol)
    (hres : Core.generate_puzzle_from_solution sol ratio sh fuel = some p) :
    (∀ i j : Fin 9, p i j ≠ 0 → p i j = sol i j) ∧
    Core.count_solutions p = 1 ∧ numCompletions p = 1 ∧
    (∀ s : Board, IsCompletionOf p s ↔ s = sol) := by
  obtain ⟨k, hcp⟩ := gpfs_some sol ratio sh fuel p hres
  obtain ⟨hagree, hcnt⟩ := carvePass_invariant sol (Core.cellsToRemove ratio) (sh k)
    sol 0 p (fun i j => Or.inl rfl) (count_solutions_complete sol hsol) hcp
  have hagree2 : ∀ i j : Fin 9, p i j ≠ 0 → p i j = sol i j := by
    intro i j h0
    rcases hagree i j with h | h
    · exact h
    · exact absurd h h0
  have hvb : ValidBoard p := valid_subboard sol p (specComplete_validBoard sol hsol) hagree
  have hN : numCompletions p = 1 := by
    have hmin := count_solutions_min p hvb
    rw [hcnt] at hmin
    omega
  have hcompl : IsCompletionOf p sol := ⟨fun i j h0 => (hagree2 i j h0).symm, hsol⟩
  exact ⟨hagree2, hcnt, hN, completion_unique p sol hN hcompl⟩

/-- Witness for C1: one carving step on the example solution. -/
theorem claim_C1_witness :
    specComplete exSol ∧
    Core.generate_puzzle_from_solution exSol (80/81)
      (fun _ => [((0 : Fin 9), (0 : Fin 9))]) 1 = some exPuzzle ∧
    (∀ i j : Fin 9, exPuzzle i j ≠ 0 → exPuzzle i j = exSol i j) ∧
    Core.count_solutions exPuzzle = 1 := by
  have hc : specComplete exSol := by decide
  have hr : Core.generate_puzzle_from_solution exSol (80/81)
      (fun _ => [((0 : Fin 9), (0 : Fin 9))]) 1 = some exPuzzle := by
    simp only [Core.generate_puzzle_from_solution]
    rw [show Core.cellsToRemove (80/81) = 1 by norm_num [Core.cellsToRemove]]
    rfl
  have h := claim_C1 exSol (80/81) (fun _ => [((0 : Fin 9), (0 : Fin 9))]) 1 exPuzzle hc hr
  exact ⟨hc, hr, h.1, h.2.1⟩

/-- C2 counterexample: the removal target is computed with `int` (truncation), not
`round`: for difficulty expert (ratio 0.3) the code removes 56 cells while
`round(81 * 0.7) = 57`. -/
theorem claim_C2_counterexample :
    Core.difficulty_ratios "expert" = 3/10 ∧
    Core.cellsToRemove (3/10) = 56 ∧
    round ((81 : ℚ) * (1 - 3/10)) = 57 := by
  refine ⟨?_, ?_, by norm_num [round_eq]⟩
  · unfold Core.difficulty_ratios
    rw [if_neg (by decide : ¬("expert" = "easy")),
      if_neg (by decide : ¬("expert" = "medium")),
      if_neg (by decide : ¬("expert" = "hard")), if_pos rfl]
  · norm_num [Core.cellsToRemove] <;> rfl

/-- C2 (amended): the carving target is `cells_to_remove = floor(81 * (1 - r))`,
giving 32, 40, 48 and 56 removed cells for easy, medium, hard and expert (so 25
cells remain for expert, not 24); and every puzzle returned by
`generate_puzzle_from_solution` for a positive target from a complete solution
under duplicate-free position shuffles has exactly `81 - cells_to_remove` nonzero
cells. -/
theorem claim_C2 :
    (Core.cellsToRemove (Core.difficulty_ratios "easy") = 32 ∧
     Core.cellsToRemove (Core.difficulty_ratios "medium") = 40 ∧
     Core.cellsToRemove (Core.difficulty_ratios "hard") = 48 ∧
     Core.cellsToRemove (Core.difficulty_ratios "expert") = 56) ∧
    (∀ (ratio : ℚ) (sol p : Board) (sh : ℕ → List (Fin 9 × Fin 9)) (fuel : ℕ),
        0 < Core.cellsToRemove ratio → (∀ k, (sh k).Nodup) → specComplete sol →
        Core.generate_puzzle_from_solution sol ratio sh fuel = some p →
        nonzeroCount p = 81 - Core.cellsToRemove ratio ∧
        emptyCount p = Core.cellsToRemove ratio) := by
  have he : Core.difficulty_ratios "easy" = 6/10 := by
    unfold Core.difficulty_ratios
    rw [if_pos rfl]
  have hm : Core.difficulty_ratios "medium" = 5/10 := by
    unfold Core.difficulty_ratios
    rw [if_neg (by decide : ¬("medium" = "easy")), if_pos rfl]
  have hh : Core.difficulty_ratios "hard" = 4/10 := by
    unfold Core.difficulty_ratios
    rw [if_neg (by decide : ¬("hard" = "easy")),
      if_neg (by decide : ¬("hard" = "medium")), if_pos rfl]
  have hx : Core.difficulty_ratios "expert" = 3/10 := by
    unfold Core.difficulty_ratios
    rw [if_neg (by decide : ¬("expert" = "easy")),
      if_neg (by decide : ¬("expert" = "medium")),
      if_neg (by decide : ¬("expert" = "hard")), if_pos rfl]
  refine ⟨⟨?_, ?_, ?_, ?_⟩, ?_⟩
  · rw [he]
    norm_num [Core.cellsToRemove] <;> rfl
  · rw [hm]
    norm_num [Core.cellsToRemove] <;> rfl
  · rw [hh]
    norm_num [Core.cellsToRemove] <;> rfl
  · rw [hx]
    norm_num [Core.cellsToRemove] <;> rfl
  · intro ratio sol p sh fuel htar hnd hsol hres
    obtain ⟨k, hcp⟩ := gpfs_some sol ratio sh fuel p hres
    have hz : emptyCount p = Core.cellsToRemove ratio :=
      carvePass_zeros (Core.cellsToRemove ratio) (sh k) sol 0 p (hnd k)
        (fun q _ => hsol.1 q.1 q.2) (emptyCount_of_full sol hsol.1) htar hcp
    have hsum := emptyCount_add_nonzeroCount p
    exact ⟨by omega, hz⟩

/-- Witness for C2: a single removal with target 1. -/
theorem claim_C2_witness :
    0 < Core.cellsToRemove (80/81) ∧ specComplete exSol ∧
    Core.generate_puzzle_from_solution exSol (80/81)
      (fun _ => [((0 : Fin 9), (0 : Fin 9))]) 1 = some exPuzzle ∧
    nonzeroCount exPuzzle = 81 - Core.cellsToRemove (80/81) := by
  have h1 : 0 < Core.cellsToRemove (80/81) := by norm_num [Core.cellsToRemove]
  have hc : specComplete exSol := by decide
  have hnd : ∀ k : ℕ, ([((0 : Fin 9), (0 : Fin 9))]).Nodup := fun _ => by decide
  have hr : Core.generate_puzzle_from_solution exSol (80/81)
      (fun _ => [((0 : Fin 9), (0 : Fin 9))]) 1 = some exPuzzle := by
    simp only [Core.generate_puzzle_from_solution]
    rw [show Core.cellsToRemove (80/81) = 1 by norm_num [Core.cellsToRemove]]
    rfl
  exact ⟨h1, hc, hr,
    (claim_C2.2 (80/81) exSol exPuzzle (fun _ => [((0 : Fin 9), (0 : Fin 9))]) 1
      h1 hnd hc hr).1⟩

/-! Completeness of `generate_solution` of `src/sudoku/core/generator.py`. -/

theorem get_candidates_spec (b : Board) (r c : Fin 9) (v : ℕ)
    (hv : v ∈ Sudoku.get_candidates b r c) :
    (1 ≤ v ∧ v ≤ 9) ∧ specNoConflict b r c v := by
  obtain ⟨hmem, hfil⟩ := List.mem_filter.mp hv
  refine ⟨(mem_nums1to9 v).mp hmem, ?_⟩
  have hused : ¬((∃ x : Fin 9, b r x = v) ∨ (∃ x : Fin 9, b x c = v) ∨
      (∃ i j : Fin 9, sameBox r c i j ∧ b i j = v)) := by
    simpa using hfil
  intro i j hne hunit hbv
  rcases hunit with hi | hj | hb
  · exact hused (Or.inl ⟨j, hi ▸ hbv⟩)
  · exact hused (Or.inr (Or.inl ⟨i, hj ▸ hbv⟩))
  · exact hused (Or.inr (Or.inr ⟨i, j, hb, hbv⟩))

theorem perm_getD_ne (pk : List ℕ) (hperm : pk.Perm nums1to9) (a b : ℕ)
    (ha : a < 9) (hb : b < 9) (hne : a ≠ b) : pk.getD a 0 ≠ pk.getD b 0 := by
  have hlen : pk.length = 9 := by
    rw [hperm.length_eq]
    decide
  have hnd : pk.Nodup := hperm.nodup_iff.mpr (by decide)
  rw [List.getD_eq_getElem pk 0 (by omega), List.getD_eq_getElem pk 0 (by omega)]
  intro h
  exact hne ((List.Nodup.getElem_inj_iff hnd).mp h)

theorem perm_getD_mem (pk : List ℕ) (hperm : pk.Perm nums1to9) (a : ℕ) (ha : a < 9) :
    1 ≤ pk.getD a 0 ∧ pk.getD a 0 ≤ 9 := by
  have hlen : pk.length = 9 := by
    rw [hperm.length_eq]
    decide
  rw [List.getD_eq_getElem pk 0 (by omega)]
  exact (mem_nums1to9 _).mp (hperm.mem_iff.mp (List.getElem_mem _))

theorem fill_box_diag (p0 p1 p2 : List ℕ) (i j : Fin 9) :
    Sudoku.fill_box (Sudoku.fill_box (Sudoku.fill_box (fun _ _ => 0) 0 0 p0) 3 3 p1) 6 6 p2 i j
      = if i.val / 3 = j.val / 3 then
          ([p0, p1, p2].getD (i.val / 3) []).getD ((i.val % 3) * 3 + j.val % 3) 0
        else 0 := by
  fin_cases i <;> fin_cases j <;> rfl

theorem diag_validBoard (p0 p1 p2 : List ℕ) (h0 : p0.Perm nums1to9)
    (h1 : p1.Perm nums1to9) (h2 : p2.Perm nums1to9) :
    ValidBoard (Sudoku.fill_box (Sudoku.fill_box
      (Sudoku.fill_box (fun _ _ => 0) 0 0 p0) 3 3 p1) 6 6 p2) := by
  have hperm : ∀ k : ℕ, k < 3 → ([p0, p1, p2].getD k []).Perm nums1to9 := by
    intro k hk
    interval_cases k
    · exact h0
    · exact h1
    · exact h2
  constructor
  · intro i j
    rw [fill_box_diag]
    by_cases hd : i.val / 3 = j.val / 3
    · rw [if_pos hd]
      exact (perm_getD_mem _ (hperm (i.val / 3) (by have := i.isLt; omega)) _
        (by have := i.isLt; have := j.isLt; omega)).2
    · rw [if_neg hd]
      omega
  · intro r c h0c i j hne hunit hveq
    rw [fill_box_diag] at h0c hveq
    rw [fill_box_diag] at hveq
    by_cases hdrc : r.val / 3 = c.val / 3
    · rw [if_pos hdrc] at h0c hveq
      by_cases hdij : i.val / 3 = j.val / 3
      · rw [if_pos hdij] at hveq
        -- both cells lie in diagonal boxes; same unit forces the same box
        have hsame : i.val / 3 = r.val / 3 ∧ j.val / 3 = c.val / 3 := by
          rcases hunit with hi | hj | hb
          · subst hi
            constructor
            · rfl
            · omega
          · subst hj
            constructor
            · omega
            · rfl
          · exact hb
        have hi9 := i.isLt
        have hr9 := r.isLt
        have hj9 := j.isLt
        have hc9 := c.isLt
        have hbox := hsame.1
        have hbox2 := hsame.2
        rw [hbox] at hveq
        have hneidx : (i.val % 3) * 3 + j.val % 3 ≠ (r.val % 3) * 3 + c.val % 3 := by
          rcases hne with h | h
          · have hir : i.val ≠ r.val := fun hv => h (Fin.ext hv)
            omega
          · have hjc : j.val ≠ c.val := fun hv => h (Fin.ext hv)
            omega
        exact perm_getD_ne _ (hperm (r.val / 3) (by omega)) _ _
          (by omega) (by omega) hneidx hveq
      · rw [if_neg hdij] at hveq
        have hge := (perm_getD_mem _ (hperm (r.val / 3) (by have := r.isLt; omega))
          ((r.val % 3) * 3 + c.val % 3)
          (by have := r.isLt; have := c.isLt; omega)).1
        omega
    · rw [if_neg hdrc] at h0c
      exact h0c rfl

theorem solveLoopS_complete (recur : Board → ℕ → Board × ℕ × Bool) (r c : Fin 9)
    (hrec : ∀ (b2 : Board) (att2 : ℕ), ValidBoard b2 → (recur b2 att2).2.2 = true →
      specComplete (recur b2 att2).1)
    (hrest : ∀ (b2 : Board) (att2 : ℕ), (recur b2 att2).2.2 = false →
      (recur b2 att2).1 = b2) :
    ∀ (l : List ℕ) (b : Board) (att : ℕ), ValidBoard b → b r c = 0 →
      (∀ v ∈ l, (1 ≤ v ∧ v ≤ 9) ∧ specNoConflict b r c v) →
      (Sudoku.solveLoopS recur r c l b att).2.2 = true →
      specComplete (Sudoku.solveLoopS recur r c l b att).1 := by
  intro l
  induction l with
  | nil =>
    intro b att _ _ _ hsucc
    exact absurd hsucc (by simp [Sudoku.solveLoopS])
  | cons v rest ih =>
    intro b att hvb hb hmem hsucc
    simp only [Sudoku.solveLoopS] at hsucc ⊢
    have hv := hmem v (List.mem_cons_self v rest)
    have hupd : ValidBoard (update b r c v) := valid_update b r c v hvb hb hv.1 hv.2
    by_cases h2 : (recur (update b r c v) att).2.2 = true
    · rw [if_pos h2] at hsucc ⊢
      exact hrec _ _ hupd h2
    · rw [if_neg h2] at hsucc ⊢
      simp only [Bool.not_eq_true] at h2
      rw [hrest _ _ h2, update_cancel b r c v hb] at hsucc ⊢
      exact ih b _ hvb hb (fun w hw => hmem w (List.mem_cons_of_mem v hw)) hsucc

theorem solve_recursiveS_complete (sh : ℕ → List ℕ → List ℕ)
    (hsh : ∀ (n : ℕ) (l : List ℕ), (sh n l).Perm l) :
    ∀ (fuel : ℕ) (b : Board) (att : ℕ), ValidBoard b →
      (Sudoku.solve_recursive sh fuel b att).2.2 = true →
      specComplete (Sudoku.solve_recursive sh fuel b att).1 := by
  intro fuel
  induction fuel with
  | zero =>
    intro b att _ hsucc
    exact absurd hsucc (by simp [Sudoku.solve_recursive])
  | succ f ih =>
    intro b att hvb hsucc
    simp only [Sudoku.solve_recursive] at hsucc ⊢
    by_cases hm : Sudoku.max_attempts ≤ att + 1
    · rw [if_pos hm] at hsucc ⊢
      exact absurd hsucc (by simp)
    · rw [if_neg hm] at hsucc ⊢
      cases hfe : Sudoku.find_best_empty_cell b with
      | none =>
        simp [hfe] at hsucc ⊢
        exact complete_of_full_valid b hvb (find_best_none b hfe)
      | some p =>
        obtain ⟨r, c⟩ := p
        by_cases he : (Sudoku.get_candidates b r c).isEmpty
        · have he2 : Sudoku.get_candidates b r c = [] := by simpa using he
          simp [hfe, he2] at hsucc
        · rw [hfe] at hsucc
          simp only [if_neg he] at hsucc ⊢
          refine solveLoopS_complete _ r c (fun b2 a2 hv2 => ih b2 a2 hv2)
            (fun b2 a2 => solve_recursiveS_restore sh f b2 a2) _ b (att + 1) hvb
            (find_best_some b r c hfe) ?_ hsucc
          intro v hv
          exact get_candidates_spec b r c v ((hsh (att + 1) _).mem_iff.mp hv)

/-- C4: `generate_solution` of `src/sudoku/core/generator.py` first clears the board
and fills the three diagonal boxes with the supplied digit permutations (the board
handed to the backtracking solver holds permutation `k` in diagonal box `k` and 0
everywhere else), and every grid it returns is complete: zero-free with every row,
column and box a permutation of 1..9. -/
theorem claim_C4 (p0 p1 p2 : List ℕ) (sh : ℕ → List ℕ → List ℕ)
    (h0 : p0.Perm nums1to9) (h1 : p1.Perm nums1to9) (h2 : p2.Perm nums1to9)
    (hsh : ∀ (n : ℕ) (l : List ℕ), (sh n l).Perm l) :
    (∀ i j : Fin 9,
      Sudoku.fill_box (Sudoku.fill_box (Sudoku.fill_box (fun _ _ => 0) 0 0 p0) 3 3 p1)
          6 6 p2 i j
        = if i.val / 3 = j.val / 3 then
            ([p0, p1, p2].getD (i.val / 3) []).getD ((i.val % 3) * 3 + j.val % 3) 0
          else 0) ∧
    (∀ (fuel : ℕ) (g : Board), Sudoku.generate_solution p0 p1 p2 sh fuel = some g →
      Sudoku.is_complete g = true ∧ specComplete g) := by
  refine ⟨fill_box_diag p0 p1 p2, ?_⟩
  intro fuel g hres
  simp only [Sudoku.generate_solution] at hres
  by_cases hok : (Sudoku.solve_recursive sh fuel (Sudoku.fill_box (Sudoku.fill_box
      (Sudoku.fill_box (fun _ _ => 0) 0 0 p0) 3 3 p1) 6 6 p2) 0).2.2 = true
  · rw [if_pos hok] at hres
    obtain rfl := Option.some.inj hres
    have hcomp := solve_recursiveS_complete sh hsh fuel _ 0
      (diag_validBoard p0 p1 p2 h0 h1 h2) hok
    exact ⟨(is_complete_iff _).mpr hcomp, hcomp⟩
  · rw [if_neg hok] at hres
    exact absurd hres (by simp)

/-- Witness for C4 with identity shuffles and the canonical digit order. -/
theorem claim_C4_witness :
    nums1to9.Perm nums1to9 ∧ (∀ (n : ℕ) (l : List ℕ), ((fun _ l => l : ℕ → List ℕ → List ℕ) n l).Perm l) ∧
    (∀ g : Board,
      Sudoku.generate_solution nums1to9 nums1to9 nums1to9 (fun _ l => l) 0 = some g →
      Sudoku.is_complete g = true) :=
  ⟨List.Perm.refl nums1to9, fun _ l => List.Perm.refl l,
   fun g hg =>
     ((claim_C4 nums1to9 nums1to9 nums1to9 (fun _ l => l) (List.Perm.refl nums1to9)
       (List.Perm.refl nums1to9) (List.Perm.refl nums1to9)
       (fun _ l => List.Perm.refl l)).2 0 g hg).1⟩
